import Mathlib

/-!
Verification of the spectral-processing core of the spectraview library.

The TypeScript sources are shallowly embedded in Lean 4: machine floats
(conceptually float64 per the data model) are modelled by `ℚ` (by `ℝ` where
the source calls `Math.sqrt`), typed arrays by `List ℚ`, and the module-level
auto-incrementing id counters by an explicit counter argument.  `DataView`
byte buffers are abstracted by a structure of decoded-value accessors plus a
byte length, with every access range-checked exactly where either the source
or the `DataView` API checks it.  Stable `Array.prototype.sort` (stable per
the ECMAScript specification) is modelled by stable insertion sort.
-/

namespace SpectraView

/-- Spectrum record from `src/types` restricted to the fields the verified
    core reads or writes; `meta` is a string association list. -/
structure Spectrum where
  id : String
  label : String
  x : List ℚ
  y : List ℚ
  xUnit : Option String
  yUnit : Option String
  color : Option String
  lineStyle : Option String
  type : String
  meta : List (String × String)
deriving DecidableEq

/-- Detected peak value type from `src/types`. -/
structure Peak where
  x : ℚ
  y : ℚ
  label : String
deriving DecidableEq

/-! ## comparison.ts -/

/-- Sum loop `for i in [0,n): acc += l[i]` used by `correlationCoefficient`. -/
def indexSum (l : List ℚ) (n : ℕ) : ℚ :=
  (List.range n).foldl (fun acc i => acc + l.getD i 0) 0

/-- Centered product-sum loop of `correlationCoefficient`:
    `for i in [0,n): acc += (a[i] - ma) * (b[i] - mb)`. -/
def centeredDot (a b : List ℚ) (ma mb : ℚ) (n : ℕ) : ℚ :=
  (List.range n).foldl (fun acc i => acc + (a.getD i 0 - ma) * (b.getD i 0 - mb)) 0

/-- Variance-style sum of `correlationCoefficient` over the first `n` samples
    of a list (the `varA`/`varB` accumulators). -/
def pearsonVar (l : List ℚ) (n : ℕ) : ℚ :=
  centeredDot l l (indexSum l n / n) (indexSum l n / n) n

/-- Pearson correlation coefficient `correlationCoefficient` from
    `comparison.ts`; `Math.sqrt` forces the result type `ℝ`. -/
noncomputable def correlationCoefficient (a b : Spectrum) : ℝ :=
  let n := min a.y.length b.y.length
  if n = 0 then 0
  else
    let meanA := indexSum a.y n / n
    let meanB := indexSum b.y n / n
    let cov := centeredDot a.y b.y meanA meanB n
    let varA := centeredDot a.y a.y meanA meanA n
    let varB := centeredDot b.y b.y meanB meanB n
    let denom := Real.sqrt ((varA * varB : ℚ))
    if denom = 0 then 0 else (cov : ℝ) / denom

/-- Scalar multiplication `scaleSpectrum` from `comparison.ts`; the global id
    counter is passed explicitly as `idc`. -/
def scaleSpectrum (idc : ℕ) (spectrum : Spectrum) (factor : ℚ) : Spectrum :=
  { id := "scaled-" ++ toString (idc + 1)
    label := spectrum.label ++ " × " ++ toString factor
    x := spectrum.x
    y := spectrum.y.map (fun v => v * factor)
    xUnit := spectrum.xUnit
    yUnit := spectrum.yUnit
    color := spectrum.color
    lineStyle := none
    type := spectrum.type
    meta := [] }

/-- Shared shape of the two `while (lo < hi - 1)` bracketing binary-search
    loops (`interpolateToGrid` in `comparison.ts` and `binarySearchClosest`
    in `snap.ts`); each caller passes its own move-`lo` test as `pred`. -/
def bracketLoop (pred : ℕ → Bool) (lo hi : ℕ) : ℕ × ℕ :=
  if lo + 1 < hi then
    let mid := (lo + hi) / 2
    if pred mid then bracketLoop pred mid hi else bracketLoop pred lo mid
  else (lo, hi)
termination_by hi - lo
decreasing_by
  all_goals omega

/-- Per-target-point body of the `interpolateToGrid` loop: bracketing binary
    search followed by linear interpolation between the bracketing pair. -/
def interpolateAt (xs ys : List ℚ) (n : ℕ) (ascending : Bool) (targetX : ℚ) : ℚ :=
  let lh := bracketLoop
    (fun mid => if ascending then decide (xs.getD mid 0 ≤ targetX)
                else decide (xs.getD mid 0 ≥ targetX)) 0 (n - 1)
  let x0 := xs.getD lh.1 0
  let x1 := xs.getD lh.2 0
  let y0 := ys.getD lh.1 0
  let y1 := ys.getD lh.2 0
  if x0 = x1 then y0
  else y0 + ((targetX - x0) / (x1 - x0)) * (y1 - y0)

/-- Linear-interpolating grid resampler `interpolateToGrid` from
    `comparison.ts`; the global id counter is passed explicitly as `idc`. -/
def interpolateToGrid (idc : ℕ) (spectrum : Spectrum) (newX : List ℚ) : Spectrum :=
  let n := min spectrum.x.length spectrum.y.length
  if n < 2 then
    { spectrum with x := newX, y := List.replicate newX.length 0 }
  else
    let ascending := decide (spectrum.x.getD 0 0 < spectrum.x.getD (n - 1) 0)
    { spectrum with
      id := "interp-" ++ toString (idc + 1)
      x := newX
      y := newX.map (fun targetX => interpolateAt spectrum.x spectrum.y n ascending targetX) }

/-! ## processing.ts -/

/-- Cross-product test of the lower-hull scan in `baselineRubberBand`
    (`cross` at the top of the pop loop, for stack neighbours `a < b` and
    incoming index `i`). -/
def hullCross (y : List ℚ) (a b i : ℕ) : ℚ :=
  ((i : ℚ) - (a : ℚ)) * (y.getD b 0 - y.getD a 0) -
    ((b : ℚ) - (a : ℚ)) * (y.getD i 0 - y.getD a 0)

/-- Pop phase of the monotone-chain scan in `baselineRubberBand`: while the
    stack has two entries and the cross test is `≥ 0`, pop the top.  The
    stack is kept most-recent-first. -/
def hullPop (y : List ℚ) (i : ℕ) : List ℕ → List ℕ
  | b :: a :: rest =>
      if 0 ≤ hullCross y a b i then hullPop y i (a :: rest) else b :: a :: rest
  | s => s

/-- Main scan loop of `baselineRubberBand` over indices `1 .. n-1`: pop then
    push each index. -/
def hullScan (y : List ℚ) : List ℕ → List ℕ → List ℕ
  | stack, [] => stack
  | stack, i :: is => hullScan y (i :: hullPop y i stack) is

/-- Lower-hull index list of `baselineRubberBand` (`hullIndices`), in
    left-to-right order. -/
def hullIndices (y : List ℚ) : List ℕ :=
  (hullScan y [0] (List.range' 1 (y.length - 1))).reverse

/-- Baseline interpolation loop of `baselineRubberBand` for one index `i`:
    advance while the next hull index is `≤ i`, then either interpolate the
    current hull segment or (past the last segment) use the last hull value. -/
def interpBaseline (y : List ℚ) : List ℕ → ℕ → ℚ
  | [], _ => 0
  | [a], _ => y.getD a 0
  | a :: b :: rest, i =>
      if b ≤ i then interpBaseline y (b :: rest) i
      else
        let t : ℚ := ((i : ℚ) - (a : ℚ)) / ((b : ℚ) - (a : ℚ))
        y.getD a 0 * (1 - t) + y.getD b 0 * t

/-- Interpolated rubber-band baseline array computed inside
    `baselineRubberBand` (the `baseline` buffer). -/
def rubberBandBaseline (y : List ℚ) : List ℚ :=
  (List.range y.length).map (interpBaseline y (hullIndices y))

/-- Rubber-band baseline correction `baselineRubberBand` from
    `processing.ts`: subtract the interpolated lower convex hull; inputs with
    fewer than 3 samples are returned as an unchanged copy. -/
def baselineRubberBand (y : List ℚ) : List ℚ :=
  if y.length < 3 then y
  else (List.range y.length).map
    (fun i => y.getD i 0 - interpBaseline y (hullIndices y) i)

/-- Pre-tabulated quadratic Savitzky-Golay coefficient lookup
    `getSGCoefficients` from `processing.ts`; unsupported sizes fall back to
    uniform moving-average weights. -/
def getSGCoefficients (windowSize : ℕ) : List ℚ :=
  if windowSize = 5 then ([-3, 12, 17, 12, -3] : List ℚ).map (fun v => v / 35)
  else if windowSize = 7 then ([-2, 3, 6, 7, 6, 3, -2] : List ℚ).map (fun v => v / 21)
  else if windowSize = 9 then
    ([-21, 14, 39, 54, 59, 54, 39, 14, -21] : List ℚ).map (fun v => v / 231)
  else if windowSize = 11 then
    ([-36, 9, 44, 69, 84, 89, 84, 69, 44, 9, -36] : List ℚ).map (fun v => v / 429)
  else List.replicate windowSize ((1 : ℚ) / windowSize)

/-- Edge-copying convolution shared by the smoothing loop of
    `smoothSavitzkyGolay`: samples within `halfW` of either boundary are
    copied, interior samples get the windowed convolution sum. -/
def convolveEdgeCopy (coefficients : List ℚ) (halfW : ℕ) (y : List ℚ) : List ℚ :=
  (List.range y.length).map (fun i =>
    if i < halfW ∨ y.length - 1 - i < halfW then y.getD i 0
    else (List.range coefficients.length).foldl
      (fun sum j => sum + coefficients.getD j 0 * y.getD (i + j - halfW) 0) 0)

/-- Savitzky-Golay smoothing `smoothSavitzkyGolay` from `processing.ts`. -/
def smoothSavitzkyGolay (y : List ℚ) (windowSize : ℕ) : List ℚ :=
  if y.length < windowSize ∨ windowSize < 3 then y
  else
    let w := if windowSize % 2 = 0 then windowSize + 1 else windowSize
    let halfW := (w - 1) / 2
    convolveEdgeCopy (getSGCoefficients w) halfW y

/-- Smoothing behaviour described by the specification sentence behind claim
    C4, as a second definition to compare against `smoothSavitzkyGolay`:
    coerce the window to odd, use the exact quadratic Savitzky-Golay
    coefficient set for window sizes 5/7/9/11 and a uniform moving average of
    the window width otherwise, always copying boundary samples unchanged. -/
def specSmoothSavGol (y : List ℚ) (windowSize : ℕ) : List ℚ :=
  let w := if windowSize % 2 = 0 then windowSize + 1 else windowSize
  let halfW := (w - 1) / 2
  let coefficients : List ℚ :=
    if w = 5 then [-3/35, 12/35, 17/35, 12/35, -3/35]
    else if w = 7 then [-2/21, 3/21, 6/21, 7/21, 6/21, 3/21, -2/21]
    else if w = 9 then
      [-21/231, 14/231, 39/231, 54/231, 59/231, 54/231, 39/231, 14/231, -21/231]
    else if w = 11 then
      [-36/429, 9/429, 44/429, 69/429, 84/429, 89/429, 84/429, 69/429, 44/429, 9/429, -36/429]
    else List.replicate w ((1 : ℚ) / w)
  convolveEdgeCopy coefficients halfW y

/-! ## lttb.ts -/

/-- Downsampled point with its source index (`LTTBPoint` from `lttb.ts`). -/
structure LTTBPoint where
  px : ℚ
  py : ℚ
  index : ℕ
deriving DecidableEq

/-- Centroid of the next bucket in `lttbDownsample` (`avgX`/`avgY`
    accumulation; an empty bucket keeps the raw sums, i.e. zero). -/
def lttbAvg (x y : List ℚ) (xScale yScale : ℚ → ℚ) (nextStart nextEnd : ℕ) : ℚ × ℚ :=
  let cnt := nextEnd - nextStart
  let sx := (List.range' nextStart cnt).foldl (fun acc i => acc + xScale (x.getD i 0)) 0
  let sy := (List.range' nextStart cnt).foldl (fun acc i => acc + yScale (y.getD i 0)) 0
  if 0 < cnt then (sx / cnt, sy / cnt) else (sx, sy)

/-- Maximum-triangle-area candidate scan of one bucket in `lttbDownsample`
    (`maxArea` starts at `-1`, `bestIdx` at `bucketStart`). -/
def lttbBucketBest (x y : List ℚ) (xScale yScale : ℚ → ℚ)
    (prevPx prevPy avgX avgY : ℚ) (bucketStart bucketEnd : ℕ) : ℕ :=
  ((List.range' bucketStart (bucketEnd - bucketStart)).foldl
    (fun st i =>
      let px := xScale (x.getD i 0)
      let py := yScale (y.getD i 0)
      let area := |(prevPx - avgX) * (py - prevPy) - (prevPx - px) * (avgY - prevPy)|
      if st.1 < area then (area, i) else st)
    ((-1 : ℚ), bucketStart)).2

/-- Bucket loop of `lttbDownsample`, one output point per bucket; arguments
    after the scales are `startIdx`, `n`, `bucketCount`, `bucketSize`,
    `endIdx`, then the loop state: remaining buckets, current bucket number,
    previously selected index. -/
def lttbBuckets (x y : List ℚ) (xScale yScale : ℚ → ℚ)
    (startIdx n bucketCount : ℕ) (bucketSize : ℚ) (endIdx : ℕ) :
    ℕ → ℕ → ℕ → List LTTBPoint
  | 0, _, _ => []
  | rem + 1, bucket, prevSelectedIdx =>
      let bucketStart := startIdx + 1 + (Int.floor ((bucket : ℚ) * bucketSize)).toNat
      let bucketEnd :=
        startIdx + 1 + min (Int.floor (((bucket : ℚ) + 1) * bucketSize)).toNat (n - 2)
      let nextStart := bucketEnd
      let nextEnd :=
        startIdx + 1 + min (Int.floor (((bucket : ℚ) + 2) * bucketSize)).toNat (n - 2)
      let avg :=
        if bucket = bucketCount - 1 then
          (xScale (x.getD (endIdx - 1) 0), yScale (y.getD (endIdx - 1) 0))
        else lttbAvg x y xScale yScale nextStart nextEnd
      let prevPx := xScale (x.getD prevSelectedIdx 0)
      let prevPy := yScale (y.getD prevSelectedIdx 0)
      let bestIdx :=
        lttbBucketBest x y xScale yScale prevPx prevPy avg.1 avg.2 bucketStart bucketEnd
      ⟨xScale (x.getD bestIdx 0), yScale (y.getD bestIdx 0), bestIdx⟩ ::
        lttbBuckets x y xScale yScale startIdx n bucketCount bucketSize endIdx
          rem (bucket + 1) bestIdx

/-- Largest-Triangle-Three-Buckets downsampler `lttbDownsample` from
    `lttb.ts` (`startIdx` inclusive, `endIdx` exclusive). -/
def lttbDownsample (x y : List ℚ) (startIdx endIdx : ℕ)
    (xScale yScale : ℚ → ℚ) (targetCount : ℕ) : List LTTBPoint :=
  let n := endIdx - startIdx
  if n ≤ targetCount then
    (List.range' startIdx n).map
      (fun i => ⟨xScale (x.getD i 0), yScale (y.getD i 0), i⟩)
  else
    let bucketCount := targetCount - 2
    let bucketSize : ℚ := ((n : ℚ) - 2) / (bucketCount : ℚ)
    (⟨xScale (x.getD startIdx 0), yScale (y.getD startIdx 0), startIdx⟩ :
        LTTBPoint) ::
      lttbBuckets x y xScale yScale startIdx n bucketCount bucketSize endIdx
        bucketCount 0 startIdx ++
      [⟨xScale (x.getD (endIdx - 1) 0), yScale (y.getD (endIdx - 1) 0), endIdx - 1⟩]

/-! ## snap.ts -/

/-- Closest-index binary search `binarySearchClosest` from `snap.ts`; the
    sentinel "not found" is `-1`, hence the `ℤ` result. -/
def binarySearchClosest (arr : List ℚ) (target : ℚ) (length : ℕ) : ℤ :=
  if length = 0 then -1
  else if length = 1 then 0
  else
    let ascending := decide (arr.getD 0 0 ≤ arr.getD (length - 1) 0)
    let lh := bracketLoop
      (fun mid => if ascending then decide (arr.getD mid 0 ≤ target)
                  else decide (arr.getD mid 0 ≥ target)) 0 (length - 1)
    if |arr.getD lh.1 0 - target| ≤ |arr.getD lh.2 0 - target| then (lh.1 : ℤ)
    else (lh.2 : ℤ)

/-! ## peaks.ts -/

/-- Peak-label formatter `formatWavenumber` from `peaks.ts`
    (`Math.round(value).toString()`; `Math.round` is floor of `x + 1/2`). -/
def formatWavenumber (value : ℚ) : String :=
  toString (Int.floor (value + 1/2))

/-- Leftward valley scan `findMinBefore` from `peaks.ts`, iterating `j` from
    the given start index down to `0`, breaking at a strictly higher sample. -/
def findMinBeforeAux (y : List ℚ) (yi : ℚ) : ℕ → ℚ → ℚ
  | 0, m => if yi < y.getD 0 0 then m else min m (y.getD 0 0)
  | j + 1, m =>
      if yi < y.getD (j + 1) 0 then m
      else findMinBeforeAux y yi j (min m (y.getD (j + 1) 0))

/-- Minimum before index `i` stopping at a higher sample (`findMinBefore`). -/
def findMinBefore (y : List ℚ) (i : ℕ) : ℚ :=
  if i = 0 then y.getD i 0 else findMinBeforeAux y (y.getD i 0) (i - 1) (y.getD i 0)

/-- Rightward valley scan of `findMinAfter` from `peaks.ts` over the samples
    after index `i`, breaking at a strictly higher sample. -/
def findMinAfterGo (yi : ℚ) (m : ℚ) : List ℚ → ℚ
  | [] => m
  | v :: rest => if yi < v then m else findMinAfterGo yi (min m v) rest

/-- Minimum after index `i` stopping at a higher sample (`findMinAfter`). -/
def findMinAfter (y : List ℚ) (i : ℕ) : ℚ :=
  findMinAfterGo (y.getD i 0) (y.getD i 0) (y.drop (i + 1))

/-- Local-maxima peak detector `detectPeaks` from `peaks.ts`.  The stable
    comparator sorts are modelled by `List.insertionSort` (stable), the
    `Infinity`-seeded min/max folds by folds seeded with the first sample
    (equal on the nonempty lists reaching them), and the falsy check on
    `maxPeaks` by matching `some 0` to no truncation. -/
def detectPeaks (x y : List ℚ) (prominence minDistance : ℚ)
    (maxPeaks : Option ℕ) : List Peak :=
  if x.length < 3 ∨ y.length < 3 then []
  else
    let yMin := y.foldl min (y.getD 0 0)
    let yMax := y.foldl max (y.getD 0 0)
    let signalRange := yMax - yMin
    if signalRange = 0 then []
    else
      let absProminence := prominence * signalRange
      let candidates : List (ℕ × ℚ) :=
        (List.range y.length).filterMap (fun i =>
          if 1 ≤ i ∧ i + 1 < y.length ∧
              y.getD (i - 1) 0 < y.getD i 0 ∧ y.getD (i + 1) 0 < y.getD i 0 then
            let prom := y.getD i 0 - max (findMinBefore y i) (findMinAfter y i)
            if absProminence ≤ prom then some (i, prom) else none
          else none)
      let sorted := candidates.insertionSort (fun a b => b.2 ≤ a.2)
      let kept := sorted.foldl
        (fun kept c =>
          if kept.any (fun k => |(k.1 : ℚ) - (c.1 : ℚ)| < minDistance) then kept
          else kept ++ [c]) []
      let selected :=
        match maxPeaks with
        | some (m + 1) => kept.take (m + 1)
        | _ => kept
      (selected.map (fun c =>
        ⟨x.getD c.1 0, y.getD c.1 0, formatWavenumber (x.getD c.1 0)⟩)).insertionSort
        (fun a b => a.x ≤ b.x)

/-! ## spc.ts -/

/-- Error kinds thrown by `parseSpc`: the three `throw new Error(...)` sites
    plus the `RangeError` a `DataView` accessor itself throws on an
    out-of-range read (the flat x-values loop reads unchecked). -/
inductive SpcError where
  | tooSmall : SpcError
  | unsupportedVersion : ℕ → SpcError
  | noSpectra : SpcError
  | rangeError : SpcError
deriving DecidableEq

/-- Abstraction of an `ArrayBuffer` wrapped in a little-endian `DataView`:
    the byte length plus one decoded-value accessor per typed read used by
    `parseSpc`, and the decoded null-terminated memo text.  Accessor values
    at offsets beyond the byte length are irrelevant because every such read
    is either guarded or modelled as throwing `rangeError`. -/
structure SpcBuffer where
  byteLength : ℕ
  u8 : ℕ → ℕ
  u32 : ℕ → ℕ
  f64 : ℕ → ℚ
  f32 : ℕ → ℚ
  i16 : ℕ → ℤ
  memo : String

/-- Evenly spaced x grid generated by `parseSpc` from `firstX`, `lastX` and a
    point count (the `sharedX` block and the per-sub-curve fallback). -/
def linearGrid (firstX lastX : ℚ) (npoints : ℕ) : List ℚ :=
  let step := if 1 < npoints then (lastX - firstX) / ((npoints : ℚ) - 1) else 0
  (List.range npoints).map (fun i => firstX + (i : ℚ) * step)

/-- Flat x-values block read of `parseSpc` (lines 153-160): `getFloat32`
    calls with no explicit bounds check, so a read past the end of the buffer
    surfaces the `DataView` range error.  Returns the values and the offset
    after the block. -/
def readFileXValues (b : SpcBuffer) (offset : ℕ) : ℕ → Except SpcError (List ℚ × ℕ)
  | 0 => .ok ([], offset)
  | k + 1 =>
      if b.byteLength < offset + 4 then .error .rangeError
      else
        match readFileXValues b (offset + 4) k with
        | .error e => .error e
        | .ok (rest, offset') => .ok (b.f32 offset :: rest, offset')

/-- Bounds-checked float32 read loop of `parseSpc` into a preallocated
    zero-initialised array of the given length: `break` on overrun leaves the
    remaining entries zero and the offset unchanged. -/
def readF32Padded (b : SpcBuffer) (offset : ℕ) : ℕ → List ℚ × ℕ
  | 0 => ([], offset)
  | k + 1 =>
      if b.byteLength < offset + 4 then (List.replicate (k + 1) 0, offset)
      else
        let rest := readF32Padded b (offset + 4) k
        (b.f32 offset :: rest.1, rest.2)

/-- Bounds-checked int16 read loop of `parseSpc`, padded like
    `readF32Padded`. -/
def readI16Padded (b : SpcBuffer) (offset : ℕ) : ℕ → List ℚ × ℕ
  | 0 => ([], offset)
  | k + 1 =>
      if b.byteLength < offset + 2 then (List.replicate (k + 1) 0, offset)
      else
        let rest := readI16Padded b (offset + 2) k
        (((b.i16 offset : ℤ) : ℚ) :: rest.1, rest.2)

/-- X-axis type code to unit label table `X_TYPE_LABELS` from `spc.ts`. -/
def xTypeLabels (c : ℕ) : Option String :=
  match c with
  | 0 => some "Arbitrary"
  | 1 => some "cm⁻¹"
  | 2 => some "µm"
  | 3 => some "nm"
  | 4 => some "s"
  | 5 => some "min"
  | 6 => some "Hz"
  | 7 => some "kHz"
  | 8 => some "MHz"
  | 9 => some "m/z"
  | 10 => some "Da"
  | 11 => some "ppm"
  | 12 => some "days"
  | 13 => some "years"
  | 14 => some "Raman shift (cm⁻¹)"
  | 15 => some "eV"
  | 16 => some "Text label"
  | 255 => some "Double interferogram"
  | _ => none

/-- Y-axis type code to unit label table `Y_TYPE_LABELS` from `spc.ts`. -/
def yTypeLabels (c : ℕ) : Option String :=
  match c with
  | 0 => some "Arbitrary"
  | 1 => some "Interferogram"
  | 2 => some "Absorbance"
  | 3 => some "Kubelka-Munk"
  | 4 => some "Counts"
  | 5 => some "V"
  | 6 => some "°"
  | 7 => some "mA"
  | 8 => some "mm"
  | 9 => some "mV"
  | 10 => some "log(1/R)"
  | 11 => some "%"
  | 12 => some "Intensity"
  | 13 => some "Relative intensity"
  | 14 => some "Energy"
  | 16 => some "dB"
  | 19 => some "°C"
  | 20 => some "°F"
  | 21 => some "K"
  | 22 => some "Index of refraction [n]"
  | 23 => some "Extinction coeff. [k]"
  | 24 => some "Real"
  | 25 => some "Imaginary"
  | 26 => some "Complex"
  | 128 => some "Transmittance"
  | 129 => some "Reflectance"
  | 130 => some "Arbitrary (Valley to peak)"
  | 131 => some "Emission"
  | _ => none

/-- Spectrum type inference `inferSpectrumType` from `spc.ts`. -/
def inferSpectrumType (xType yType : ℕ) : String :=
  if xType = 1 then "IR"
  else if xType = 14 then "Raman"
  else if xType = 3 ∧ (yType = 2 ∨ yType = 128) then "UV-Vis"
  else if xType = 2 then "NIR"
  else if yType = 131 then "fluorescence"
  else "other"

/-- Per-sub-spectrum loop of `parseSpc`.  Arguments after the buffer are the
    flag booleans, the main-header point count, the generated shared grid,
    the flat x-values block, and the record builder (closing over header
    metadata); the loop state is remaining count, sub-spectrum number `s`,
    and current offset.  A sub-header that does not fit ends the whole loop
    (`break`); truncated x/y reads are padded, not fatal. -/
def readSubSpectra (b : SpcBuffer) (isMulti hasXValues is16Bit : Bool)
    (npoints : ℕ) (sharedX fileXValues : Option (List ℚ))
    (mk : ℕ → List ℚ → List ℚ → Spectrum) :
    ℕ → ℕ → ℕ → List Spectrum
  | 0, _, _ => []
  | count + 1, s, offset =>
      if isMulti then
        if b.byteLength < offset + 32 then []
        else
          let subStartX := b.f32 (offset + 4)
          let subEndX := b.f32 (offset + 8)
          let subNpoints := if b.u32 (offset + 12) = 0 then npoints else b.u32 (offset + 12)
          let offset1 := offset + 32
          let xv :=
            if hasXValues then readF32Padded b offset1 subNpoints
            else
              match sharedX with
              | some sx => (sx, offset1)
              | none => (linearGrid subStartX subEndX subNpoints, offset1)
          let yv :=
            if is16Bit then readI16Padded b xv.2 subNpoints
            else readF32Padded b xv.2 subNpoints
          mk s xv.1 yv.1 ::
            readSubSpectra b isMulti hasXValues is16Bit npoints sharedX fileXValues mk
              count (s + 1) yv.2
      else
        let xVals := ((fileXValues.orElse (fun _ => sharedX)).getD [])
        let yv :=
          if is16Bit then readI16Padded b offset npoints
          else readF32Padded b offset npoints
        mk s xVals yv.1 ::
          readSubSpectra b isMulti hasXValues is16Bit npoints sharedX fileXValues mk
            count (s + 1) yv.2

/-- SPC binary decoder `parseSpc` from `spc.ts`; the module-level id counter
    is passed explicitly as `idc`. -/
def parseSpc (idc : ℕ) (b : SpcBuffer) : Except SpcError (List Spectrum) :=
  if b.byteLength < 512 then .error .tooSmall
  else
    let flags := b.u8 0
    let fileVersion := b.u8 1
    if fileVersion ≠ 0x4b ∧ fileVersion ≠ 0x4d then
      .error (.unsupportedVersion fileVersion)
    else
      let xType := b.u8 2
      let yType := b.u8 3
      let npoints := b.u32 4
      let firstX := b.f64 8
      let lastX := b.f64 16
      let numSpectra := b.u32 24
      let xUnit := (xTypeLabels xType).getD "Arbitrary"
      let yUnit := (yTypeLabels yType).getD "Arbitrary"
      let memo := b.memo
      let isMulti := (flags).testBit 2
      let hasXValues := (flags).testBit 7
      let is16Bit := (flags).testBit 0
      let specType := inferSpectrumType xType yType
      let sharedX : Option (List ℚ) :=
        if hasXValues = false ∧ 0 < npoints then some (linearGrid firstX lastX npoints)
        else none
      let mk : ℕ → List ℚ → List ℚ → Spectrum := fun s xv yv =>
        { id := "spc-" ++ toString (idc + s + 1)
          label := if memo = "" then "SPC Spectrum " ++ toString (s + 1) else memo
          x := xv
          y := yv
          xUnit := some xUnit
          yUnit := some yUnit
          color := none
          lineStyle := none
          type := specType
          meta := [("format", "SPC"),
                   ("version", if fileVersion = 0x4b then "new" else "old"),
                   ("xType", toString xType), ("yType", toString yType)] }
      let flatX : Except SpcError (Option (List ℚ) × ℕ) :=
        if hasXValues && !isMulti then
          match readFileXValues b 512 npoints with
          | .error e => .error e
          | .ok (vals, offset) => .ok (some vals, offset)
        else .ok (none, 512)
      match flatX with
      | .error e => .error e
      | .ok (fileXValues, offset) =>
          let count := if isMulti then numSpectra else 1
          let spectra :=
            readSubSpectra b isMulti hasXValues is16Bit npoints sharedX fileXValues mk
              count 0 offset
          if spectra = [] then .error .noSpectra else .ok spectra

/-! ## Concrete buffers used by witnesses and counterexamples -/

/-- Valid 512-byte-header buffer with the explicit-x flag set (`0x80`), no
    multi flag, a supported version byte and `npoints = 1`, but no bytes
    after the header: the flat x-values loop reads past the end. -/
def spcBufFlatX : SpcBuffer :=
  { byteLength := 512
    u8 := fun off => if off = 0 then 0x80 else if off = 1 then 0x4b else 0
    u32 := fun off => if off = 4 then 1 else 0
    f64 := fun _ => 0
    f32 := fun _ => 0
    i16 := fun _ => 0
    memo := "" }

/-- Valid single-spectrum float buffer declaring `npoints = 4` but providing
    bytes for only two float32 y-samples (values 7 and 9). -/
def spcBufTrunc : SpcBuffer :=
  { byteLength := 520
    u8 := fun off => if off = 1 then 0x4b else 0
    u32 := fun off => if off = 4 then 4 else 0
    f64 := fun _ => 0
    f32 := fun off => if off = 512 then 7 else if off = 516 then 9 else 0
    i16 := fun _ => 0
    memo := "" }

/-- Valid single-spectrum buffer with implicit x, `firstX = 400`,
    `lastX = 4000`, `npoints = 5`, and room for all five y-samples. -/
def spcBufC9 : SpcBuffer :=
  { byteLength := 532
    u8 := fun off => if off = 1 then 0x4b else 0
    u32 := fun off => if off = 4 then 5 else 0
    f64 := fun off => if off = 8 then 400 else if off = 16 then 4000 else 0
    f32 := fun _ => 0
    i16 := fun _ => 0
    memo := "" }

/-- Structural throw causes of `parseSpc` over the embedded buffer model:
    header too small, unsupported version byte, unchecked flat x-values block
    overrunning the buffer (single-file explicit-x only), or a decode that
    produces zero curves (multi-file with zero declared sub-spectra or no
    room for the first 32-byte sub-header). -/
def spcThrowCause (b : SpcBuffer) : Prop :=
  b.byteLength < 512 ∨
  (b.u8 1 ≠ 0x4b ∧ b.u8 1 ≠ 0x4d) ∨
  ((b.u8 0).testBit 7 = true ∧ (b.u8 0).testBit 2 = false ∧
    0 < b.u32 4 ∧ b.byteLength < 512 + 4 * b.u32 4) ∨
  ((b.u8 0).testBit 2 = true ∧ (b.u32 24 = 0 ∨ b.byteLength < 544))

instance (b : SpcBuffer) : Decidable (spcThrowCause b) := by
  unfold spcThrowCause
  infer_instance

/-- Sample `k` lies on or above the chord through samples `a` and `c`
    (inequality scaled by `c - a`, positive when `a < c`). -/
def AboveChord (y : List ℚ) (a c k : ℕ) : Prop :=
  ((k : ℚ) - (a : ℚ)) * (y.getD c 0 - y.getD a 0) ≤
    ((c : ℚ) - (a : ℚ)) * (y.getD k 0 - y.getD a 0)

/-- Every sample between `a` and `c` lies on or above the chord `a → c`. -/
def SegAbove (y : List ℚ) (a c : ℕ) : Prop :=
  ∀ k, a ≤ k → k ≤ c → AboveChord y a c k

/-- Well-formed hull stack (most recent index first): strictly decreasing
    head-to-tail, every adjacent pair's chord lies below the samples between
    them, and the bottom of the stack is index 0. -/
def GoodStack (y : List ℚ) (S : List ℕ) : Prop :=
  S.Chain' (fun b a => a < b ∧ SegAbove y a b) ∧ S.getLast? = some 0

/-! ## Shared helper lemmas -/

/-- Reading every position of a list with `getD` reproduces the list. -/
theorem map_range_getD {α : Type} (l : List α) (d : α) :
    (List.range l.length).map (fun i => l.getD i d) = l := by
  apply List.ext_getElem (by simp)
  intro i h1 h2
  simp only [List.getElem_map, List.getElem_range]
  rw [List.getD_eq_getElem?_getD, List.getElem?_eq_getElem h2, Option.getD_some]

/-- When the list fits inside the copied edges, the edge-copying convolution
    is the identity. -/
theorem convolveEdgeCopy_short (c : List ℚ) (halfW : ℕ) (y : List ℚ)
    (h : y.length ≤ 2 * halfW) : convolveEdgeCopy c halfW y = y := by
  unfold convolveEdgeCopy
  rw [List.map_congr_left (g := fun i => y.getD i 0), map_range_getD]
  intro i hi
  rw [List.mem_range] at hi
  rw [if_pos (by omega)]

/-- The bucket loop of `lttbDownsample` yields one point per remaining
    bucket. -/
theorem lttbBuckets_length (x y : List ℚ) (xScale yScale : ℚ → ℚ)
    (startIdx n bucketCount : ℕ) (bucketSize : ℚ) (endIdx : ℕ) :
    ∀ rem bucket prev,
      (lttbBuckets x y xScale yScale startIdx n bucketCount bucketSize endIdx
        rem bucket prev).length = rem := by
  intro rem
  induction rem with
  | zero => intro bucket prev; rfl
  | succ k ih =>
      intro bucket prev
      rw [lttbBuckets]
      simp only [List.length_cons, ih]

/-! ## Claim C3: LTTB output size and endpoint preservation -/

/-- C3 (amended: the decimating branch needs `targetCount ≥ 2`): a window
    strictly larger than a target count of at least two decimates to exactly
    `targetCount` points whose first source index is `startIdx` and whose
    last is `endIdx - 1`, while a window of at most `targetCount` samples is
    returned unchanged, in order, with no decimation. -/
theorem lttb_endpoints_and_size (x y : List ℚ) (startIdx endIdx : ℕ)
    (xScale yScale : ℚ → ℚ) (targetCount : ℕ) :
    (2 ≤ targetCount → targetCount < endIdx - startIdx →
      (lttbDownsample x y startIdx endIdx xScale yScale targetCount).length = targetCount ∧
      ((lttbDownsample x y startIdx endIdx xScale yScale targetCount).head?).map
          (fun p => p.index) = some startIdx ∧
      ((lttbDownsample x y startIdx endIdx xScale yScale targetCount).getLast?).map
          (fun p => p.index) = some (endIdx - 1)) ∧
    (endIdx - startIdx ≤ targetCount →
      lttbDownsample x y startIdx endIdx xScale yScale targetCount =
        (List.range' startIdx (endIdx - startIdx)).map
          (fun i => ⟨xScale (x.getD i 0), yScale (y.getD i 0), i⟩)) := by
  constructor
  · intro h2 hlt
    rw [lttbDownsample, if_neg (by omega)]
    refine ⟨?_, ?_, ?_⟩
    · simp only [List.length_cons, List.length_append, List.length_nil,
        lttbBuckets_length]
      omega
    · rfl
    · show Option.map _ ((_ :: (_ ++ [_])).getLast?) = _
      rw [← List.cons_append, List.getLast?_concat]
      rfl
  · intro hle
    rw [lttbDownsample, if_pos hle]

/-- C3 counterexample to the unamended claim: a window of 3 samples with
    `targetCount = 1` is strictly larger than the target, yet the decimated
    output has 2 points, not `targetCount`. -/
theorem lttb_target_one_counterexample :
    (lttbDownsample [0, 0, 0] [0, 0, 0] 0 3 (fun v => v) (fun v => v) 1).length = 2 ∧
    (1 : ℕ) < 3 - 0 ∧ (2 : ℕ) ≠ 1 := by
  decide

/-- C3 witness: the decimating branch at a concrete window of 8 samples with
    `targetCount = 4`. -/
theorem lttb_endpoints_witness :
    (lttbDownsample [0, 1, 2, 3, 4, 5, 6, 7] [0, 5, 1, 4, 2, 3, 9, 0] 0 8
        (fun v => v) (fun v => v) 4).length = 4 ∧
    ((lttbDownsample [0, 1, 2, 3, 4, 5, 6, 7] [0, 5, 1, 4, 2, 3, 9, 0] 0 8
        (fun v => v) (fun v => v) 4).head?).map (fun p => p.index) = some 0 ∧
    ((lttbDownsample [0, 1, 2, 3, 4, 5, 6, 7] [0, 5, 1, 4, 2, 3, 9, 0] 0 8
        (fun v => v) (fun v => v) 4).getLast?).map (fun p => p.index) = some 7 :=
  (lttb_endpoints_and_size [0, 1, 2, 3, 4, 5, 6, 7] [0, 5, 1, 4, 2, 3, 9, 0] 0 8
    (fun v => v) (fun v => v) 4).1 (by norm_num) (by norm_num)

/-! ## Claim C4: Savitzky-Golay coefficient sets and fallbacks -/

/-- The tabulated coefficient lookup written as explicit rational lists. -/
theorem getSGCoefficients_eq_spec (w : ℕ) :
    getSGCoefficients w =
      (if w = 5 then [-3/35, 12/35, 17/35, 12/35, -3/35]
       else if w = 7 then [-2/21, 3/21, 6/21, 7/21, 6/21, 3/21, -2/21]
       else if w = 9 then
         [-21/231, 14/231, 39/231, 54/231, 59/231, 54/231, 39/231, 14/231, -21/231]
       else if w = 11 then
         [-36/429, 9/429, 44/429, 69/429, 84/429, 89/429, 84/429, 69/429, 44/429,
           9/429, -36/429]
       else List.replicate w ((1 : ℚ) / w)) := by
  by_cases h5 : w = 5
  · subst h5; norm_num [getSGCoefficients]
  · by_cases h7 : w = 7
    · subst h7; norm_num [getSGCoefficients]
    · by_cases h9 : w = 9
      · subst h9; norm_num [getSGCoefficients]
      · by_cases h11 : w = 11
        · subst h11; norm_num [getSGCoefficients]
        · simp [getSGCoefficients, h5, h7, h9, h11]

/-- C4 (amended: window sizes below 3 return the input unchanged instead of
    falling back to a moving average): for `windowSize ≥ 3` the smoother
    agrees everywhere with the specification's description — odd-coerced
    window, the exact quadratic coefficient tables for window sizes
    5/7/9/11 (window 5 being `[-3,12,17,12,-3]/35`), uniform moving average
    for other sizes, boundary samples copied unchanged, and inputs shorter
    than the window left unchanged (all their samples lie within the copied
    boundary margin). -/
theorem savitzky_golay_matches_spec (y : List ℚ) (windowSize : ℕ) :
    (3 ≤ windowSize →
      smoothSavitzkyGolay y windowSize = specSmoothSavGol y windowSize) ∧
    (windowSize < 3 → smoothSavitzkyGolay y windowSize = y) ∧
    getSGCoefficients 5 = [-3/35, 12/35, 17/35, 12/35, -3/35] := by
  refine ⟨?_, ?_, by norm_num [getSGCoefficients]⟩
  · intro hws
    by_cases hn : y.length < windowSize
    · rw [smoothSavitzkyGolay, if_pos (Or.inl hn)]
      simp only [specSmoothSavGol]
      refine (convolveEdgeCopy_short _ _ _ ?_).symm
      by_cases h2 : windowSize % 2 = 0 <;> simp only [h2, if_pos, if_neg] <;> simp <;> omega
    · rw [smoothSavitzkyGolay, if_neg (by omega)]
      simp only [specSmoothSavGol]
      rw [getSGCoefficients_eq_spec]
  · intro h
    rw [smoothSavitzkyGolay, if_pos (Or.inr h)]

/-- C4 counterexample to the unamended claim: for `windowSize = 2` the code
    returns the input unchanged, while the claimed fallback (bump the even
    window to 3, then apply a uniform width-3 moving average) changes the
    interior sample. -/
theorem savitzky_golay_window_two_counterexample :
    smoothSavitzkyGolay [0, 3, 0] 2 = [0, 3, 0] ∧
    specSmoothSavGol [0, 3, 0] 2 = [0, 1, 0] ∧
    smoothSavitzkyGolay [0, 3, 0] 2 ≠ specSmoothSavGol [0, 3, 0] 2 := by
  refine ⟨by norm_num [smoothSavitzkyGolay], ?_, ?_⟩ <;>
    norm_num [smoothSavitzkyGolay, specSmoothSavGol, convolveEdgeCopy,
      getSGCoefficients, List.range_succ, List.getD]

/-- C4 witness: the window-5 branch on a concrete 7-sample input. -/
theorem savitzky_golay_witness :
    smoothSavitzkyGolay [0, 0, 7, 0, 0, 0, 0] 5 = specSmoothSavGol [0, 0, 7, 0, 0, 0, 0] 5 :=
  (savitzky_golay_matches_spec [0, 0, 7, 0, 0, 0, 0] 5).1 (by norm_num)

/-! ## Claim C8: peak detection output order, degenerate inputs, concrete run -/

/-- C8: `detectPeaks` always returns its peaks sorted ascending by x; inputs
    with fewer than 3 samples or zero global y-range give the empty list; and
    on x = 1..7, y = [0, 1, 0.5, 1.2, 0, 0, 0] with prominence 0.1 and
    minDistance 3 exactly one peak is returned, at x = 4. -/
theorem detect_peaks_spec :
    (∀ x y prominence minDistance maxPeaks,
      List.Sorted (fun a b => a.x ≤ b.x)
        (detectPeaks x y prominence minDistance maxPeaks)) ∧
    (∀ x y prominence minDistance maxPeaks,
      x.length < 3 ∨ y.length < 3 →
        detectPeaks x y prominence minDistance maxPeaks = []) ∧
    (∀ x y prominence minDistance maxPeaks,
      y.foldl max (y.getD 0 0) - y.foldl min (y.getD 0 0) = 0 →
        detectPeaks x y prominence minDistance maxPeaks = []) ∧
    detectPeaks [1, 2, 3, 4, 5, 6, 7] [0, 1, 1/2, 6/5, 0, 0, 0] (1/10) 3 none =
      [⟨4, 6/5, "4"⟩] := by
  haveI : IsTotal Peak (fun a b => a.x ≤ b.x) := ⟨fun a b => le_total a.x b.x⟩
  haveI : IsTrans Peak (fun a b => a.x ≤ b.x) := ⟨fun _ _ _ hab hbc => le_trans hab hbc⟩
  refine ⟨?_, ?_, ?_, ?_⟩
  · intro x y prominence minDistance maxPeaks
    rw [detectPeaks]
    by_cases h1 : x.length < 3 ∨ y.length < 3
    · rw [if_pos h1]; exact List.sorted_nil
    · rw [if_neg h1]
      have key : ∀ (c : Prop) (_ : Decidable c) (M : List Peak),
          List.Sorted (fun a b => a.x ≤ b.x)
            (if c then [] else M.insertionSort (fun a b => a.x ≤ b.x)) := by
        intro c inst M
        split
        · exact List.sorted_nil
        · exact List.sorted_insertionSort _ _
      exact key _ _ _
  · intro x y prominence minDistance maxPeaks h
    rw [detectPeaks, if_pos h]
  · intro x y prominence minDistance maxPeaks h
    rw [detectPeaks]
    by_cases h1 : x.length < 3 ∨ y.length < 3
    · rw [if_pos h1]
    · rw [if_neg h1]
      simp only [h]
      simp
  · rw [detectPeaks]
    norm_num [findMinBefore, findMinBeforeAux, findMinAfter,
      findMinAfterGo, formatWavenumber, List.range_succ,
      List.getElem?_cons_zero, List.getElem?_cons_succ, Option.getD_some,
      List.filterMap_cons,
      List.insertionSort, List.orderedInsert, max_def, min_def,
      List.take_succ_cons, List.drop_succ_cons]
    rfl

/-- C8 witness: the degenerate-input branch at a concrete 2-sample input. -/
theorem detect_peaks_witness :
    detectPeaks [1, 2] [3, 4] 1 1 none = [] :=
  detect_peaks_spec.2.1 [1, 2] [3, 4] 1 1 none (Or.inl (by norm_num))

/-! ## Claim C9: implicit x-axis reconstruction -/

/-- C9: with the explicit-x flag clear (single-file case shown; headers valid
    and `npoints ≥ 2`), `parseSpc` reconstructs the x-axis as the uniform
    grid `x[i] = firstX + i·(lastX − firstX)/(npoints − 1)`; in particular
    the concrete header `firstX = 400`, `lastX = 4000`, `npoints = 5`
    decodes to x = [400, 1300, 2200, 3100, 4000]. -/
theorem parse_spc_implicit_x_grid :
    (∀ idc (b : SpcBuffer), 512 ≤ b.byteLength →
      (b.u8 1 = 0x4b ∨ b.u8 1 = 0x4d) →
      (b.u8 0).testBit 7 = false → (b.u8 0).testBit 2 = false →
      2 ≤ b.u32 4 →
      ∃ s, parseSpc idc b = .ok [s] ∧
        s.x = (List.range (b.u32 4)).map
          (fun i => b.f64 8 + (i : ℚ) * ((b.f64 16 - b.f64 8) / ((b.u32 4 : ℚ) - 1)))) ∧
    (parseSpc 0 spcBufC9).toOption.map (fun l => l.map (fun s => s.x)) =
      some [[400, 1300, 2200, 3100, 4000]] := by
  have main : ∀ idc (b : SpcBuffer), 512 ≤ b.byteLength →
      (b.u8 1 = 0x4b ∨ b.u8 1 = 0x4d) →
      (b.u8 0).testBit 7 = false → (b.u8 0).testBit 2 = false →
      2 ≤ b.u32 4 →
      ∃ s, parseSpc idc b = .ok [s] ∧
        s.x = (List.range (b.u32 4)).map
          (fun i => b.f64 8 + (i : ℚ) * ((b.f64 16 - b.f64 8) / ((b.u32 4 : ℚ) - 1))) := by
    intro idc b hsize hv h7 h2 hnp
    have hv' : ¬(b.u8 1 ≠ 0x4b ∧ b.u8 1 ≠ 0x4d) := by
      rcases hv with h | h <;> simp [h]
    have hnp0 : 0 < b.u32 4 := by omega
    rw [parseSpc, if_neg (by omega), if_neg hv']
    simp only [h7, h2, hnp0, Bool.false_and, Bool.not_false, Bool.false_eq_true,
      if_false, if_true, reduceIte, eq_self_iff_true, true_and, and_true]
    simp only [readSubSpectra, Bool.false_eq_true, if_false, reduceIte,
      Option.orElse, Option.getD_some, reduceCtorEq]
    refine ⟨_, rfl, ?_⟩
    show linearGrid (b.f64 8) (b.f64 16) (b.u32 4) = _
    rw [linearGrid]
    rw [if_pos (show 1 < b.u32 4 by omega)]
  refine ⟨main, ?_⟩
  obtain ⟨s, hok, hx⟩ := main 0 spcBufC9 (by norm_num [spcBufC9])
    (by norm_num [spcBufC9]) (by decide) (by decide) (by norm_num [spcBufC9])
  rw [hok]
  simp only [Except.toOption, Option.map, List.map]
  rw [hx]
  norm_num [spcBufC9, List.range_succ]

/-- C9 witness: the general grid theorem applied to the concrete buffer. -/
theorem parse_spc_implicit_x_grid_witness :
    ∃ s, parseSpc 0 spcBufC9 = .ok [s] ∧
      s.x = (List.range (spcBufC9.u32 4)).map
        (fun i => spcBufC9.f64 8 + (i : ℚ) *
          ((spcBufC9.f64 16 - spcBufC9.f64 8) / ((spcBufC9.u32 4 : ℚ) - 1))) :=
  parse_spc_implicit_x_grid.1 0 spcBufC9 (by norm_num [spcBufC9])
    (by norm_num [spcBufC9]) (by decide) (by decide) (by norm_num [spcBufC9])

/-! ## Claims C1/C2: parseSpc error behaviour -/

/-- The unchecked flat x-values block read fails (with the `DataView` range
    error) whenever the declared block extends past the buffer. -/
theorem readFileXValues_overrun (b : SpcBuffer) :
    ∀ (k offset : ℕ), 0 < k → b.byteLength < offset + 4 * k →
      readFileXValues b offset k = .error .rangeError := by
  intro k
  induction k with
  | zero => intro offset h; omega
  | succ n ih =>
      intro offset _ hlen
      rw [readFileXValues]
      by_cases hend : b.byteLength < offset + 4
      · rw [if_pos hend]
      · rw [if_neg hend]
        have hn : 0 < n := by omega
        rw [ih (offset + 4) hn (by omega)]

/-- The flat x-values block read succeeds when the declared block fits in the
    buffer (or is empty). -/
theorem readFileXValues_fits (b : SpcBuffer) :
    ∀ (k offset : ℕ), offset + 4 * k ≤ b.byteLength ∨ k = 0 →
      ∃ p, readFileXValues b offset k = .ok p := by
  intro k
  induction k with
  | zero => intro offset _; exact ⟨([], offset), rfl⟩
  | succ n ih =>
      intro offset h
      have hfit : offset + 4 * (n + 1) ≤ b.byteLength := by omega
      obtain ⟨p, hp⟩ := ih (offset + 4) (by omega)
      rw [readFileXValues, if_neg (by omega), hp]
      exact ⟨_, rfl⟩

/-- A multi-file sub-spectrum loop yields no spectra exactly when the count
    is zero or the first 32-byte sub-header does not fit. -/
theorem readSubSpectra_multi_nil_iff (b : SpcBuffer) (hx i16 : Bool)
    (np : ℕ) (sx fx : Option (List ℚ)) (mk : ℕ → List ℚ → List ℚ → Spectrum)
    (count s offset : ℕ) :
    readSubSpectra b true hx i16 np sx fx mk count s offset = [] ↔
      count = 0 ∨ b.byteLength < offset + 32 := by
  cases count with
  | zero => simp [readSubSpectra]
  | succ n =>
      rw [readSubSpectra]
      simp only [if_true, reduceIte]
      by_cases hend : b.byteLength < offset + 32
      · simp [hend]
      · simp [hend]

/-- A single-file sub-spectrum loop yields no spectra only for a zero
    iteration count. -/
theorem readSubSpectra_single_nil_iff (b : SpcBuffer) (hx i16 : Bool)
    (np : ℕ) (sx fx : Option (List ℚ)) (mk : ℕ → List ℚ → List ℚ → Spectrum)
    (count s offset : ℕ) :
    readSubSpectra b false hx i16 np sx fx mk count s offset = [] ↔ count = 0 := by
  cases count with
  | zero => simp [readSubSpectra]
  | succ n =>
      rw [readSubSpectra]
      simp

/-- Reduced form of `parseSpc` in the single-file explicit-x case whose flat
    x-values block overruns the buffer: the `DataView` range error escapes. -/
theorem parse_spc_flat_overrun (idc : ℕ) (b : SpcBuffer)
    (hsize : ¬ b.byteLength < 512) (hv' : ¬(b.u8 1 ≠ 0x4b ∧ b.u8 1 ≠ 0x4d))
    (h7 : (b.u8 0).testBit 7 = true) (hm2 : (b.u8 0).testBit 2 = false)
    (hnp : 0 < b.u32 4) (hov : b.byteLength < 512 + 4 * b.u32 4) :
    parseSpc idc b = .error .rangeError := by
  rw [parseSpc, if_neg hsize, if_neg hv']
  simp only [h7, hm2, Bool.not_false, Bool.and_true, if_true, reduceIte]
  rw [readFileXValues_overrun b (b.u32 4) 512 hnp (by omega)]

/-- Reduced form of `parseSpc` in the multi-file case with zero decodable
    sub-spectra. -/
theorem parse_spc_multi_empty (idc : ℕ) (b : SpcBuffer)
    (hsize : ¬ b.byteLength < 512) (hv' : ¬(b.u8 1 ≠ 0x4b ∧ b.u8 1 ≠ 0x4d))
    (hm2 : (b.u8 0).testBit 2 = true)
    (hz : b.u32 24 = 0 ∨ b.byteLength < 544) :
    parseSpc idc b = .error .noSpectra := by
  rw [parseSpc, if_neg hsize, if_neg hv']
  simp only [hm2, Bool.not_true, Bool.and_false, Bool.false_eq_true, if_false,
    reduceIte, if_true]
  rw [if_pos ((readSubSpectra_multi_nil_iff _ _ _ _ _ _ _ _ _ _).mpr (by simp; omega))]

/-- Reduced form of `parseSpc` in the multi-file case with at least one
    decodable sub-spectrum. -/
theorem parse_spc_multi_ok (idc : ℕ) (b : SpcBuffer)
    (hsize : ¬ b.byteLength < 512) (hv' : ¬(b.u8 1 ≠ 0x4b ∧ b.u8 1 ≠ 0x4d))
    (hm2 : (b.u8 0).testBit 2 = true)
    (hz : ¬(b.u32 24 = 0 ∨ b.byteLength < 544)) :
    ∃ l, l ≠ [] ∧ parseSpc idc b = .ok l := by
  rw [parseSpc, if_neg hsize, if_neg hv']
  simp only [hm2, Bool.not_true, Bool.and_false, Bool.false_eq_true, if_false,
    reduceIte, if_true]
  rw [if_neg ((readSubSpectra_multi_nil_iff _ _ _ _ _ _ _ _ _ _).not.mpr (by simp; omega))]
  refine ⟨_, ?_, rfl⟩
  rw [Ne, readSubSpectra_multi_nil_iff]
  simp
  omega

/-- Reduced form of `parseSpc` in every non-throwing single-file case. -/
theorem parse_spc_single_ok (idc : ℕ) (b : SpcBuffer)
    (hsize : ¬ b.byteLength < 512) (hv' : ¬(b.u8 1 ≠ 0x4b ∧ b.u8 1 ≠ 0x4d))
    (hm2 : (b.u8 0).testBit 2 = false)
    (h : (b.u8 0).testBit 7 = false ∨
      ¬(0 < b.u32 4 ∧ b.byteLength < 512 + 4 * b.u32 4)) :
    ∃ l, l ≠ [] ∧ parseSpc idc b = .ok l := by
  rw [parseSpc, if_neg hsize, if_neg hv']
  by_cases h7 : (b.u8 0).testBit 7 = true
  · have hov : ¬(0 < b.u32 4 ∧ b.byteLength < 512 + 4 * b.u32 4) := by
      rcases h with h | h
      · rw [h7] at h; cases h
      · exact h
    simp only [h7, hm2, Bool.not_false, Bool.and_true, if_true, reduceIte]
    obtain ⟨⟨vals, off⟩, hp⟩ := readFileXValues_fits b (b.u32 4) 512 (by omega)
    rw [hp]
    refine ⟨_, ?_, rfl⟩
    rw [Ne, readSubSpectra_single_nil_iff]
    simp
  · have h7' : (b.u8 0).testBit 7 = false := by
      cases hb : (b.u8 0).testBit 7
      · rfl
      · exact absurd hb h7
    simp only [h7', hm2, Bool.false_and, Bool.false_eq_true, if_false, reduceIte]
    refine ⟨_, ?_, rfl⟩
    rw [Ne, readSubSpectra_single_nil_iff]
    simp

/-- C1 (amended: a fourth throw cause exists): `parseSpc` throws exactly when
    the buffer is smaller than 512 bytes, the version byte is unsupported,
    the unchecked flat x-values block of a single-file explicit-x buffer
    overruns the buffer (a `DataView` range error), or the decode produces
    zero curves; every other buffer decodes to at least one curve. -/
theorem parse_spc_error_characterization (idc : ℕ) (b : SpcBuffer) :
    ((∃ e, parseSpc idc b = .error e) ↔ spcThrowCause b) ∧
    (∀ l, parseSpc idc b = .ok l → l ≠ []) := by
  by_cases hsize : b.byteLength < 512
  · have hps : parseSpc idc b = .error .tooSmall := by rw [parseSpc, if_pos hsize]
    rw [hps]
    exact ⟨⟨fun _ => Or.inl hsize, fun _ => ⟨_, rfl⟩⟩, fun l hl => by cases hl⟩
  · by_cases hv : b.u8 1 ≠ 0x4b ∧ b.u8 1 ≠ 0x4d
    · have hps : parseSpc idc b = .error (.unsupportedVersion (b.u8 1)) := by
        rw [parseSpc, if_neg hsize, if_pos hv]
      rw [hps]
      exact ⟨⟨fun _ => Or.inr (Or.inl hv), fun _ => ⟨_, rfl⟩⟩, fun l hl => by cases hl⟩
    · by_cases hm2 : (b.u8 0).testBit 2 = true
      · by_cases hz : b.u32 24 = 0 ∨ b.byteLength < 544
        · rw [parse_spc_multi_empty idc b hsize hv hm2 hz]
          exact ⟨⟨fun _ => Or.inr (Or.inr (Or.inr ⟨hm2, hz⟩)), fun _ => ⟨_, rfl⟩⟩,
            fun l hl => by cases hl⟩
        · obtain ⟨l, hne, hps⟩ := parse_spc_multi_ok idc b hsize hv hm2 hz
          rw [hps]
          refine ⟨⟨fun h => ?_, fun h => ?_⟩, fun l' hl' => by
            rw [Except.ok.injEq] at hl'; exact hl' ▸ hne⟩
          · obtain ⟨e, he⟩ := h; cases he
          · exfalso
            rcases h with h | h | h | h
            · exact hsize h
            · exact hv h
            · rw [hm2] at h; exact absurd h.2.1 (by simp)
            · exact hz h.2
      · have hm2' : (b.u8 0).testBit 2 = false := by
          cases hb : (b.u8 0).testBit 2
          · rfl
          · exact absurd hb hm2
        by_cases hov : (b.u8 0).testBit 7 = true ∧ 0 < b.u32 4 ∧
            b.byteLength < 512 + 4 * b.u32 4
        · rw [parse_spc_flat_overrun idc b hsize hv hov.1 hm2' hov.2.1 hov.2.2]
          exact ⟨⟨fun _ => Or.inr (Or.inr (Or.inl ⟨hov.1, hm2', hov.2.1, hov.2.2⟩)),
            fun _ => ⟨_, rfl⟩⟩, fun l hl => by cases hl⟩
        · obtain ⟨l, hne, hps⟩ := parse_spc_single_ok idc b hsize hv hm2' (by
            by_cases h7 : (b.u8 0).testBit 7 = true
            · right; intro hc; exact hov ⟨h7, hc⟩
            · left
              cases hb : (b.u8 0).testBit 7
              · rfl
              · exact absurd hb h7)
          rw [hps]
          refine ⟨⟨fun h => ?_, fun h => ?_⟩, fun l' hl' => by
            rw [Except.ok.injEq] at hl'; exact hl' ▸ hne⟩
          · obtain ⟨e, he⟩ := h; cases he
          · exfalso
            rcases h with h | h | h | h
            · exact hsize h
            · exact hv h
            · exact hov ⟨h.1, h.2.2⟩
            · rw [hm2'] at h; exact absurd h.1 (by simp)

/-- C1 counterexample to the unamended claim: a 512-byte buffer with a
    supported version byte and the explicit-x flag (none of the three claimed
    causes) makes `parseSpc` throw the `DataView` range error instead of
    returning a curve. -/
theorem parse_spc_flat_x_counterexample :
    parseSpc 0 spcBufFlatX = .error .rangeError ∧
    ¬ spcBufFlatX.byteLength < 512 ∧ spcBufFlatX.u8 1 = 0x4b ∧
    (spcBufFlatX.u8 0).testBit 2 = false := by
  refine ⟨?_, by decide, by decide, by decide⟩
  exact parse_spc_flat_overrun 0 spcBufFlatX (by decide) (by decide) (by decide)
    (by decide) (by decide) (by decide)

/-- C1 witness: the characterization applied to the concrete overrunning
    buffer, exhibiting a throwing decode. -/
theorem parse_spc_error_characterization_witness :
    ∃ e, parseSpc 0 spcBufFlatX = .error e :=
  (parse_spc_error_characterization 0 spcBufFlatX).1.mpr (by decide)

/-- A bounds-checked float32 body read always fills its declared length. -/
theorem readF32Padded_length (b : SpcBuffer) :
    ∀ (k offset : ℕ), (readF32Padded b offset k).1.length = k := by
  intro k
  induction k with
  | zero => intro offset; rfl
  | succ n ih =>
      intro offset
      rw [readF32Padded]
      by_cases hend : b.byteLength < offset + 4
      · rw [if_pos hend]; simp
      · rw [if_neg hend]; simp [ih]

/-- Entries of a bounds-checked float32 body read whose slot overruns the
    buffer are left at zero. -/
theorem readF32Padded_zero_tail (b : SpcBuffer) :
    ∀ (k offset j : ℕ), j < k → b.byteLength < offset + 4 * j + 4 →
      (readF32Padded b offset k).1.getD j 0 = 0 := by
  intro k
  induction k with
  | zero => intro offset j hj; omega
  | succ n ih =>
      intro offset j hj hslot
      rw [readF32Padded]
      by_cases hend : b.byteLength < offset + 4
      · rw [if_pos hend]
        simp only [List.getD_eq_getElem?_getD, List.getElem?_replicate]
        by_cases hjk : j < n + 1 <;> simp [hjk]
      · rw [if_neg hend]
        cases j with
        | zero => omega
        | succ j' =>
            simp only [List.getD_cons_succ]
            exact ih (offset + 4) j' (by omega) (by omega)

/-- A bounds-checked int16 body read always fills its declared length. -/
theorem readI16Padded_length (b : SpcBuffer) :
    ∀ (k offset : ℕ), (readI16Padded b offset k).1.length = k := by
  intro k
  induction k with
  | zero => intro offset; rfl
  | succ n ih =>
      intro offset
      rw [readI16Padded]
      by_cases hend : b.byteLength < offset + 2
      · rw [if_pos hend]; simp
      · rw [if_neg hend]; simp [ih]

/-- Entries of a bounds-checked int16 body read whose slot overruns the
    buffer are left at zero. -/
theorem readI16Padded_zero_tail (b : SpcBuffer) :
    ∀ (k offset j : ℕ), j < k → b.byteLength < offset + 2 * j + 2 →
      (readI16Padded b offset k).1.getD j 0 = 0 := by
  intro k
  induction k with
  | zero => intro offset j hj; omega
  | succ n ih =>
      intro offset j hj hslot
      rw [readI16Padded]
      by_cases hend : b.byteLength < offset + 2
      · rw [if_pos hend]
        simp only [List.getD_eq_getElem?_getD, List.getElem?_replicate]
        by_cases hjk : j < n + 1 <;> simp [hjk]
      · rw [if_neg hend]
        cases j with
        | zero => omega
        | succ j' =>
            simp only [List.getD_cons_succ]
            exact ih (offset + 2) j' (by omega) (by omega)

/-- C2 (amended: the flat x-values block is the one unchecked read, and a
    truncated checked read keeps the declared length with zero-filled tail):
    `parseSpc` surfaces a `DataView` range error exactly for single-file
    explicit-x buffers whose flat x-values block overruns the buffer; every
    other body read (sub-headers, per-sub-curve x-values, y-values) is bounds
    checked, and when the buffer ends mid-read the affected array keeps its
    declared length with the unread entries left at zero rather than being
    shortened or throwing. -/
theorem parse_spc_bounds_checking (idc : ℕ) (b : SpcBuffer) :
    (parseSpc idc b = .error .rangeError ↔
      (¬ b.byteLength < 512 ∧ ¬(b.u8 1 ≠ 0x4b ∧ b.u8 1 ≠ 0x4d) ∧
       (b.u8 0).testBit 7 = true ∧ (b.u8 0).testBit 2 = false ∧
       0 < b.u32 4 ∧ b.byteLength < 512 + 4 * b.u32 4)) ∧
    (∀ (offset k : ℕ),
      (readF32Padded b offset k).1.length = k ∧
      ∀ j, j < k → b.byteLength < offset + 4 * j + 4 →
        (readF32Padded b offset k).1.getD j 0 = 0) ∧
    (∀ (offset k : ℕ),
      (readI16Padded b offset k).1.length = k ∧
      ∀ j, j < k → b.byteLength < offset + 2 * j + 2 →
        (readI16Padded b offset k).1.getD j 0 = 0) := by
  refine ⟨⟨fun hre => ?_, fun h => parse_spc_flat_overrun idc b h.1 h.2.1 h.2.2.1
      h.2.2.2.1 h.2.2.2.2.1 h.2.2.2.2.2⟩,
    fun offset k => ⟨readF32Padded_length b k offset,
      fun j hj hs => readF32Padded_zero_tail b k offset j hj hs⟩,
    fun offset k => ⟨readI16Padded_length b k offset,
      fun j hj hs => readI16Padded_zero_tail b k offset j hj hs⟩⟩
  by_cases hsize : b.byteLength < 512
  · rw [parseSpc, if_pos hsize] at hre; cases hre
  · by_cases hv : b.u8 1 ≠ 0x4b ∧ b.u8 1 ≠ 0x4d
    · rw [parseSpc, if_neg hsize, if_pos hv] at hre; cases hre
    · by_cases hm2 : (b.u8 0).testBit 2 = true
      · by_cases hz : b.u32 24 = 0 ∨ b.byteLength < 544
        · rw [parse_spc_multi_empty idc b hsize hv hm2 hz] at hre; cases hre
        · obtain ⟨l, _, hps⟩ := parse_spc_multi_ok idc b hsize hv hm2 hz
          rw [hps] at hre; cases hre
      · have hm2' : (b.u8 0).testBit 2 = false := by
          cases hb : (b.u8 0).testBit 2
          · rfl
          · exact absurd hb hm2
        by_cases hov : (b.u8 0).testBit 7 = true ∧ 0 < b.u32 4 ∧
            b.byteLength < 512 + 4 * b.u32 4
        · exact ⟨hsize, hv, hov.1, hm2', hov.2.1, hov.2.2⟩
        · obtain ⟨l, _, hps⟩ := parse_spc_single_ok idc b hsize hv hm2' (by
            by_cases h7 : (b.u8 0).testBit 7 = true
            · right; intro hc; exact hov ⟨h7, hc⟩
            · left
              cases hb : (b.u8 0).testBit 7
              · rfl
              · exact absurd hb h7)
          rw [hps] at hre; cases hre

/-- C2 counterexample to the unamended claim at concrete inputs: the flat
    x-values block read throws instead of truncating, and a y-block that ends
    after two of four declared float samples yields a curve whose y still has
    four entries (the two unread ones zero), not only the samples read. -/
theorem parse_spc_truncation_counterexample :
    parseSpc 0 spcBufFlatX = .error .rangeError ∧
    (parseSpc 0 spcBufTrunc).toOption.map (fun l => l.map (fun s => s.y)) =
      some [[7, 9, 0, 0]] ∧
    spcBufTrunc.u32 4 = 4 ∧ spcBufTrunc.byteLength = 520 := by
  refine ⟨parse_spc_flat_overrun 0 spcBufFlatX (by decide) (by decide) (by decide)
      (by decide) (by decide) (by decide), ?_, by decide, by decide⟩
  have hps : parseSpc 0 spcBufTrunc =
      .ok [{ id := "spc-" ++ toString 1
             label := "SPC Spectrum " ++ toString 1
             x := linearGrid 0 0 4
             y := (readF32Padded spcBufTrunc 512 4).1
             xUnit := some "Arbitrary"
             yUnit := some "Arbitrary"
             color := none
             lineStyle := none
             type := "other"
             meta := [("format", "SPC"), ("version", "new"),
                      ("xType", toString 0), ("yType", toString 0)] }] := by
    rw [parseSpc, if_neg (by decide), if_neg (by decide)]
    norm_num [spcBufTrunc, readSubSpectra, Nat.testBit, xTypeLabels, yTypeLabels,
      inferSpectrumType]
  rw [hps]
  have hy : (readF32Padded spcBufTrunc 512 4).1 = [7, 9, 0, 0] := by
    norm_num [readF32Padded, spcBufTrunc, List.replicate_succ]
  simp [hy, Except.toOption]

/-- C2 witness: the padded-read conjunct applied at a concrete truncated
    read (four declared samples, room for two). -/
theorem parse_spc_bounds_checking_witness :
    (readF32Padded spcBufTrunc 512 4).1.length = 4 ∧
    (readF32Padded spcBufTrunc 512 4).1.getD 2 0 = 0 :=
  ⟨((parse_spc_bounds_checking 0 spcBufTrunc).2.1 512 4).1,
    ((parse_spc_bounds_checking 0 spcBufTrunc).2.1 512 4).2 2 (by omega) (by decide)⟩

/-! ## Claim C7: closest-index binary search -/

/-- Invariant lemma for the shared bracketing loop: any property forced by a
    true test holds at the final low end, any property forced by a false test
    holds at the final high end, and the loop narrows to an adjacent pair
    inside the initial range. -/
theorem bracketLoop_spec (pred : ℕ → Bool) (P Q : ℕ → Prop) :
    ∀ (d lo hi : ℕ), hi - lo ≤ d → lo < hi → P lo → Q hi →
      (∀ m, lo < m → m < hi → pred m = true → P m) →
      (∀ m, lo < m → m < hi → pred m = false → Q m) →
      lo ≤ (bracketLoop pred lo hi).1 ∧ (bracketLoop pred lo hi).2 ≤ hi ∧
      (bracketLoop pred lo hi).2 = (bracketLoop pred lo hi).1 + 1 ∧
      P (bracketLoop pred lo hi).1 ∧ Q (bracketLoop pred lo hi).2 := by
  intro d
  induction d with
  | zero => intro lo hi hd hlt; omega
  | succ n ih =>
      intro lo hi hd hlt hPlo hQhi hP hQ
      by_cases hcond : lo + 1 < hi
      · have hunf : bracketLoop pred lo hi =
            if pred ((lo + hi) / 2) then bracketLoop pred ((lo + hi) / 2) hi
            else bracketLoop pred lo ((lo + hi) / 2) := by
          rw [bracketLoop, if_pos hcond]
        rw [hunf]
        have hmidlo : lo < (lo + hi) / 2 := by omega
        have hmidhi : (lo + hi) / 2 < hi := by omega
        by_cases hpred : pred ((lo + hi) / 2) = true
        · rw [if_pos hpred]
          have := ih ((lo + hi) / 2) hi (by omega) hmidhi
            (hP _ hmidlo hmidhi hpred) hQhi
            (fun m hm1 hm2 hp => hP m (by omega) hm2 hp)
            (fun m hm1 hm2 hp => hQ m (by omega) hm2 hp)
          exact ⟨by omega, this.2.1, this.2.2.1, this.2.2.2⟩
        · rw [if_neg hpred]
          have hfalse : pred ((lo + hi) / 2) = false := by
            cases hb : pred ((lo + hi) / 2)
            · rfl
            · exact absurd hb hpred
          have := ih lo ((lo + hi) / 2) (by omega) hmidlo hPlo
            (hQ _ hmidlo hmidhi hfalse)
            (fun m hm1 hm2 hp => hP m hm1 (by omega) hp)
            (fun m hm1 hm2 hp => hQ m hm1 (by omega) hp)
          exact ⟨this.1, by omega, this.2.2.1, this.2.2.2⟩
      · have hunf : bracketLoop pred lo hi = (lo, hi) := by
          rw [bracketLoop, if_neg hcond]
        rw [hunf]
        exact ⟨le_refl lo, le_refl hi, by omega, hPlo, hQhi⟩

/-- Values read through `getD` at in-range positions respect a monotonicity
    assumption stated positionally. -/
theorem binarySearchClosest_min_of_mono (arr : List ℚ) (t : ℚ)
    (hmono : ∀ i j, i ≤ j → j < arr.length → arr.getD i 0 ≤ arr.getD j 0)
    (hne : arr ≠ []) :
    ∃ i : ℕ, binarySearchClosest arr t arr.length = (i : ℤ) ∧ i < arr.length ∧
      ∀ j, j < arr.length → |arr.getD i 0 - t| ≤ |arr.getD j 0 - t| := by
  have hlen : 0 < arr.length := List.length_pos.mpr hne
  by_cases h1 : arr.length = 1
  · refine ⟨0, ?_, by omega, ?_⟩
    · rw [binarySearchClosest, if_neg (by omega), if_pos h1]
      simp
    · intro j hj
      have : j = 0 := by omega
      rw [this]
  · have hlen2 : 2 ≤ arr.length := by omega
    have hflag : decide (arr.getD 0 0 ≤ arr.getD (arr.length - 1) 0) = true :=
      decide_eq_true (hmono 0 (arr.length - 1) (by omega) (by omega))
    rw [binarySearchClosest, if_neg (by omega), if_neg h1]
    simp only [hflag, if_true, ge_iff_le, reduceIte]
    have hbl := bracketLoop_spec (fun mid => decide (arr.getD mid 0 ≤ t))
      (fun m => arr.getD m 0 ≤ t ∨ m = 0)
      (fun m => t < arr.getD m 0 ∨ m = arr.length - 1)
      (arr.length - 1) 0 (arr.length - 1) (by omega) (by omega)
      (Or.inr rfl) (Or.inr rfl)
      (fun m _ _ hm => Or.inl (of_decide_eq_true hm))
      (fun m _ _ hm => Or.inl (lt_of_not_le (of_decide_eq_false hm)))
    set lh := bracketLoop (fun mid => decide (arr.getD mid 0 ≤ t)) 0 (arr.length - 1)
      with hlh
    obtain ⟨hlo0, hhiend, hadj, hPl, hQh⟩ := hbl
    have hlbound : lh.1 < arr.length := by omega
    have hhbound : lh.2 < arr.length := by omega
    have hmin : ∀ j, j < arr.length →
        min |arr.getD lh.1 0 - t| |arr.getD lh.2 0 - t| ≤ |arr.getD j 0 - t| := by
      intro j hj
      by_cases hjl : j ≤ lh.1
      · rcases hPl with hle | h0
        · have hj1 : arr.getD j 0 ≤ arr.getD lh.1 0 := hmono j lh.1 hjl hlbound
          refine le_trans (min_le_left _ _) ?_
          rw [abs_of_nonpos (by linarith), abs_of_nonpos (by linarith)]
          linarith
        · have : j = lh.1 := by omega
          rw [this]
          exact min_le_left _ _
      · have hjh : lh.2 ≤ j := by omega
        rcases hQh with hgt | hend
        · have hj2 : arr.getD lh.2 0 ≤ arr.getD j 0 := hmono lh.2 j hjh hj
          refine le_trans (min_le_right _ _) ?_
          rw [abs_of_nonneg (by linarith), abs_of_nonneg (by linarith)]
          linarith
        · have : j = lh.2 := by omega
          rw [this]
          exact min_le_right _ _
    by_cases hcmp : |arr.getD lh.1 0 - t| ≤ |arr.getD lh.2 0 - t|
    · rw [if_pos hcmp]
      refine ⟨lh.1, rfl, hlbound, ?_⟩
      intro j hj
      have := hmin j hj
      rw [min_eq_left hcmp] at this
      exact this
    · rw [if_neg hcmp]
      refine ⟨lh.2, rfl, hhbound, ?_⟩
      intro j hj
      have := hmin j hj
      rw [min_eq_right (le_of_not_le hcmp)] at this
      exact this

/-- Negating every element and the target mirrors `binarySearchClosest` when
    the original array is detected as descending. -/
theorem binarySearchClosest_neg_transfer (arr : List ℚ) (t : ℚ)
    (hflag : ¬ arr.getD 0 0 ≤ arr.getD (arr.length - 1) 0) :
    binarySearchClosest arr t arr.length =
      binarySearchClosest (arr.map (fun v => -v)) (-t) (arr.length) := by
  have hmapgetD : ∀ k, (arr.map (fun v => -v)).getD k 0 = -(arr.getD k 0) := by
    intro k
    by_cases hk : k < arr.length
    · rw [List.getD_eq_getElem?_getD, List.getElem?_eq_getElem (by simpa using hk),
        List.getD_eq_getElem?_getD, List.getElem?_eq_getElem hk]
      simp
    · rw [List.getD_eq_getElem?_getD, List.getElem?_eq_none (by simpa using hk),
        List.getD_eq_getElem?_getD, List.getElem?_eq_none (by omega)]
      simp
  by_cases h0 : arr.length = 0
  · rw [binarySearchClosest, if_pos h0, binarySearchClosest, if_pos h0]
  · by_cases h1 : arr.length = 1
    · rw [binarySearchClosest, if_neg h0, if_pos h1,
        binarySearchClosest, if_neg h0, if_pos h1]
    · have hflag' : decide (arr.getD 0 0 ≤ arr.getD (arr.length - 1) 0) = false :=
        decide_eq_false hflag
      have hmflag : decide ((arr.map (fun v => -v)).getD 0 0 ≤
          (arr.map (fun v => -v)).getD (arr.length - 1) 0) = true := by
        rw [hmapgetD, hmapgetD]
        exact decide_eq_true (by have := lt_of_not_le hflag; linarith)
      rw [binarySearchClosest, if_neg h0, if_neg h1,
        binarySearchClosest, if_neg h0, if_neg h1]
      simp only [hflag', hmflag, if_true, if_false, Bool.false_eq_true, reduceIte,
        ge_iff_le]
      have hpred : (fun mid => decide (t ≤ arr.getD mid 0)) =
          (fun mid => decide ((arr.map (fun v => -v)).getD mid 0 ≤ -t)) := by
        funext mid
        rw [hmapgetD]
        exact decide_eq_decide.mpr (by constructor <;> intro h <;> linarith)
      rw [hpred]
      set lh := bracketLoop
        (fun mid => decide ((arr.map (fun v => -v)).getD mid 0 ≤ -t)) 0
        (arr.length - 1) with hlh
      rw [hmapgetD, hmapgetD]
      have habs1 : |(-(arr.getD lh.1 0)) - (-t)| = |arr.getD lh.1 0 - t| := by
        rw [show (-(arr.getD lh.1 0)) - (-t) = -(arr.getD lh.1 0 - t) by ring, abs_neg]
      have habs2 : |(-(arr.getD lh.2 0)) - (-t)| = |arr.getD lh.2 0 - t| := by
        rw [show (-(arr.getD lh.2 0)) - (-t) = -(arr.getD lh.2 0 - t) by ring, abs_neg]
      rw [habs1, habs2]

/-- Reading `getD` through an elementwise negation. -/
theorem getD_map_neg (arr : List ℚ) (k : ℕ) :
    (arr.map (fun v => -v)).getD k 0 = -(arr.getD k 0) := by
  by_cases hk : k < arr.length
  · rw [List.getD_eq_getElem?_getD, List.getElem?_eq_getElem (by simpa using hk),
      List.getD_eq_getElem?_getD, List.getElem?_eq_getElem hk]
    simp
  · rw [List.getD_eq_getElem?_getD, List.getElem?_eq_none (by simpa using hk),
      List.getD_eq_getElem?_getD, List.getElem?_eq_none (by omega)]
    simp

/-- The bracketing loop always stops at an adjacent pair inside the initial
    range, whatever the move test. -/
theorem bracketLoop_adjacent (pred : ℕ → Bool) (lo hi : ℕ) (h : lo < hi) :
    lo ≤ (bracketLoop pred lo hi).1 ∧ (bracketLoop pred lo hi).2 ≤ hi ∧
      (bracketLoop pred lo hi).2 = (bracketLoop pred lo hi).1 + 1 := by
  have h' := bracketLoop_spec pred (fun _ => True) (fun _ => True) (hi - lo) lo hi
    le_rfl h trivial trivial (fun _ _ _ _ => trivial) (fun _ _ _ _ => trivial)
  exact ⟨h'.1, h'.2.1, h'.2.2.1⟩

/-- On any array of length at least 2 the result of `binarySearchClosest` is
    decided between the two ends of the final adjacent bracketing pair by the
    distance comparison `dLo ≤ dHi`, so an exact tie selects the lower index. -/
theorem binarySearchClosest_bracket (arr : List ℚ) (t : ℚ) (h2 : 2 ≤ arr.length) :
    ∃ k : ℕ, k + 1 < arr.length ∧
      binarySearchClosest arr t arr.length =
        (if |arr.getD k 0 - t| ≤ |arr.getD (k + 1) 0 - t| then (k : ℤ)
         else (k : ℤ) + 1) := by
  rw [binarySearchClosest, if_neg (by omega), if_neg (by omega)]
  by_cases hflag : decide (arr.getD 0 0 ≤ arr.getD (arr.length - 1) 0) = true
  · simp only [hflag, if_true, ge_iff_le, reduceIte]
    have hbl := bracketLoop_adjacent (fun mid => decide (arr.getD mid 0 ≤ t)) 0
      (arr.length - 1) (by omega)
    set lh := bracketLoop (fun mid => decide (arr.getD mid 0 ≤ t)) 0 (arr.length - 1)
      with hlh
    obtain ⟨hlo, hhi, hadj⟩ := hbl
    refine ⟨lh.1, by omega, ?_⟩
    rw [hadj]
    by_cases hcmp : |arr.getD lh.1 0 - t| ≤ |arr.getD (lh.1 + 1) 0 - t|
    · rw [if_pos hcmp, if_pos hcmp]
    · rw [if_neg hcmp, if_neg hcmp]
      omega
  · have hflag' : decide (arr.getD 0 0 ≤ arr.getD (arr.length - 1) 0) = false := by
      cases hb : decide (arr.getD 0 0 ≤ arr.getD (arr.length - 1) 0)
      · rfl
      · exact absurd hb hflag
    simp only [hflag', Bool.false_eq_true, reduceIte, ge_iff_le]
    have hbl := bracketLoop_adjacent (fun mid => decide (t ≤ arr.getD mid 0)) 0
      (arr.length - 1) (by omega)
    set lh := bracketLoop (fun mid => decide (t ≤ arr.getD mid 0)) 0 (arr.length - 1)
      with hlh
    obtain ⟨hlo, hhi, hadj⟩ := hbl
    refine ⟨lh.1, by omega, ?_⟩
    rw [hadj]
    by_cases hcmp : |arr.getD lh.1 0 - t| ≤ |arr.getD (lh.1 + 1) 0 - t|
    · rw [if_pos hcmp, if_pos hcmp]
    · rw [if_neg hcmp, if_neg hcmp]
      omega

/-- For strictly increasing positional values the returned index is the least
    distance minimiser: every smaller index is strictly farther from the
    target, so a tie at the final bracketing pair resolves to the lower
    index. -/
theorem binarySearchClosest_least_of_strict_mono (arr : List ℚ) (t : ℚ)
    (hmono : ∀ i j, i < j → j < arr.length → arr.getD i 0 < arr.getD j 0)
    (hne : arr ≠ []) :
    ∃ i : ℕ, binarySearchClosest arr t arr.length = (i : ℤ) ∧ i < arr.length ∧
      (∀ j, j < arr.length → |arr.getD i 0 - t| ≤ |arr.getD j 0 - t|) ∧
      (∀ j, j < i → |arr.getD i 0 - t| < |arr.getD j 0 - t|) := by
  have hlen : 0 < arr.length := List.length_pos.mpr hne
  by_cases h1 : arr.length = 1
  · refine ⟨0, ?_, by omega, ?_, ?_⟩
    · rw [binarySearchClosest, if_neg (by omega), if_pos h1]
      simp
    · intro j hj
      have : j = 0 := by omega
      rw [this]
    · intro j hj
      exact absurd hj (by omega)
  · have hlen2 : 2 ≤ arr.length := by omega
    have hflag : decide (arr.getD 0 0 ≤ arr.getD (arr.length - 1) 0) = true :=
      decide_eq_true (le_of_lt (hmono 0 (arr.length - 1) (by omega) (by omega)))
    rw [binarySearchClosest, if_neg (by omega), if_neg h1]
    simp only [hflag, if_true, ge_iff_le, reduceIte]
    have hbl := bracketLoop_spec (fun mid => decide (arr.getD mid 0 ≤ t))
      (fun m => arr.getD m 0 ≤ t ∨ m = 0)
      (fun m => t < arr.getD m 0 ∨ m = arr.length - 1)
      (arr.length - 1) 0 (arr.length - 1) (by omega) (by omega)
      (Or.inr rfl) (Or.inr rfl)
      (fun m _ _ hm => Or.inl (of_decide_eq_true hm))
      (fun m _ _ hm => Or.inl (lt_of_not_le (of_decide_eq_false hm)))
    set lh := bracketLoop (fun mid => decide (arr.getD mid 0 ≤ t)) 0 (arr.length - 1)
      with hlh
    obtain ⟨hlo0, hhiend, hadj, hPl, hQh⟩ := hbl
    have hlbound : lh.1 < arr.length := by omega
    have hhbound : lh.2 < arr.length := by omega
    have hloP : ∀ j, j < lh.1 → arr.getD j 0 < arr.getD lh.1 0 ∧ arr.getD lh.1 0 ≤ t := by
      intro j hj
      have hle : arr.getD lh.1 0 ≤ t := by
        rcases hPl with h | h
        · exact h
        · exact absurd hj (by omega)
      exact ⟨hmono j lh.1 hj hlbound, hle⟩
    have hmin : ∀ j, j < arr.length →
        min |arr.getD lh.1 0 - t| |arr.getD lh.2 0 - t| ≤ |arr.getD j 0 - t| := by
      intro j hj
      by_cases hjl : j ≤ lh.1
      · rcases lt_or_eq_of_le hjl with hlt | heq
        · obtain ⟨hja, hat⟩ := hloP j hlt
          refine le_trans (min_le_left _ _) ?_
          rw [abs_of_nonpos (by linarith), abs_of_nonpos (by linarith)]
          linarith
        · rw [heq]
          exact min_le_left _ _
      · have hjh : lh.2 ≤ j := by omega
        rcases hQh with hgt | hend
        · have hj2 : arr.getD lh.2 0 ≤ arr.getD j 0 := by
            rcases lt_or_eq_of_le hjh with hlt | heq
            · exact le_of_lt (hmono lh.2 j hlt hj)
            · rw [heq]
          refine le_trans (min_le_right _ _) ?_
          rw [abs_of_nonneg (by linarith), abs_of_nonneg (by linarith)]
          linarith
        · have : j = lh.2 := by omega
          rw [this]
          exact min_le_right _ _
    by_cases hcmp : |arr.getD lh.1 0 - t| ≤ |arr.getD lh.2 0 - t|
    · rw [if_pos hcmp]
      refine ⟨lh.1, rfl, hlbound, ?_, ?_⟩
      · intro j hj
        have := hmin j hj
        rw [min_eq_left hcmp] at this
        exact this
      · intro j hj
        obtain ⟨hja, hat⟩ := hloP j hj
        rw [abs_of_nonpos (by linarith), abs_of_nonpos (by linarith)]
        linarith
    · rw [if_neg hcmp]
      have hcmp' : |arr.getD lh.2 0 - t| < |arr.getD lh.1 0 - t| := lt_of_not_le hcmp
      refine ⟨lh.2, rfl, hhbound, ?_, ?_⟩
      · intro j hj
        have := hmin j hj
        rw [min_eq_right (le_of_lt hcmp')] at this
        exact this
      · intro j hj
        have hj1 : j ≤ lh.1 := by omega
        rcases lt_or_eq_of_le hj1 with hlt | heq
        · obtain ⟨hja, hat⟩ := hloP j hlt
          have hgt : |arr.getD lh.1 0 - t| < |arr.getD j 0 - t| := by
            rw [abs_of_nonpos (by linarith), abs_of_nonpos (by linarith)]
            linarith
          linarith
        · rw [heq]
          exact hcmp'

/-- C7: for every array sorted ascending or descending, `binarySearchClosest`
    returns an index whose element minimises the absolute distance to the
    target; on any array of length at least 2 the result is chosen between
    the two ends of the final adjacent bracketing pair by `dLo ≤ dHi`, a tie
    resolving to the lower index — in particular on strictly sorted arrays
    the returned index is the least distance minimiser, every smaller index
    lying strictly farther from the target; the empty array yields the
    sentinel `-1` and a single-element array yields index `0`. -/
theorem binary_search_closest_spec :
    (∀ (arr : List ℚ) (t : ℚ),
      arr.Sorted (· ≤ ·) ∨ arr.Sorted (· ≥ ·) → arr ≠ [] →
      ∃ i : ℕ, binarySearchClosest arr t arr.length = (i : ℤ) ∧ i < arr.length ∧
        ∀ j, j < arr.length → |arr.getD i 0 - t| ≤ |arr.getD j 0 - t|) ∧
    (∀ (arr : List ℚ) (t : ℚ), 2 ≤ arr.length →
      ∃ k : ℕ, k + 1 < arr.length ∧
        binarySearchClosest arr t arr.length =
          (if |arr.getD k 0 - t| ≤ |arr.getD (k + 1) 0 - t| then (k : ℤ)
           else (k : ℤ) + 1)) ∧
    (∀ (arr : List ℚ) (t : ℚ),
      arr.Sorted (· < ·) ∨ arr.Sorted (· > ·) → arr ≠ [] →
      ∃ i : ℕ, binarySearchClosest arr t arr.length = (i : ℤ) ∧ i < arr.length ∧
        (∀ j, j < arr.length → |arr.getD i 0 - t| ≤ |arr.getD j 0 - t|) ∧
        (∀ j, j < i → |arr.getD i 0 - t| < |arr.getD j 0 - t|)) ∧
    (∀ t : ℚ, binarySearchClosest [] t 0 = -1) ∧
    (∀ (a t : ℚ), binarySearchClosest [a] t 1 = 0) := by
  have hgetD : ∀ (l : List ℚ) (i : ℕ) (hi : i < l.length), l.getD i 0 = l.get ⟨i, hi⟩ := by
    intro l i hi
    rw [List.getD_eq_getElem?_getD, List.getElem?_eq_getElem hi, Option.getD_some]
    simp
  refine ⟨?_, ?_, ?_, fun t => rfl, fun a t => rfl⟩
  · intro arr t hsorted hne
    rcases hsorted with hasc | hdesc
    · refine binarySearchClosest_min_of_mono arr t ?_ hne
      intro i j hij hj
      rcases lt_or_eq_of_le hij with hlt | heq
      · rw [hgetD arr i (by omega), hgetD arr j hj]
        exact hasc.rel_get_of_lt (Fin.mk_lt_mk.mpr hlt)
      · rw [heq]
    · have hdmono : ∀ i j, i ≤ j → j < arr.length → arr.getD j 0 ≤ arr.getD i 0 := by
        intro i j hij hj
        rcases lt_or_eq_of_le hij with hlt | heq
        · rw [hgetD arr i (by omega), hgetD arr j hj]
          exact hdesc.rel_get_of_lt (Fin.mk_lt_mk.mpr hlt)
        · rw [heq]
      by_cases hflag : arr.getD 0 0 ≤ arr.getD (arr.length - 1) 0
      · refine binarySearchClosest_min_of_mono arr t ?_ hne
        intro i j hij hj
        have h1 : arr.getD i 0 ≤ arr.getD 0 0 := hdmono 0 i (by omega) (by omega)
        have h2 : arr.getD (arr.length - 1) 0 ≤ arr.getD j 0 :=
          hdmono j (arr.length - 1) (by omega) (by omega)
        linarith
      · rw [binarySearchClosest_neg_transfer arr t hflag]
        have hmlen : (arr.map (fun v => -v)).length = arr.length := by simp
        obtain ⟨i, hi, hilen, hmin⟩ := binarySearchClosest_min_of_mono
          (arr.map (fun v => -v)) (-t) (by
            intro i j hij hj
            rw [getD_map_neg, getD_map_neg]
            have := hdmono i j hij (by omega)
            linarith)
          (by
            intro hnil
            exact hne (by simpa using hnil))
        rw [hmlen] at hi hilen hmin
        refine ⟨i, hi, hilen, ?_⟩
        intro j hj
        have := hmin j hj
        rw [getD_map_neg, getD_map_neg,
          show (-(arr.getD i 0)) - (-t) = -(arr.getD i 0 - t) by ring,
          show (-(arr.getD j 0)) - (-t) = -(arr.getD j 0 - t) by ring,
          abs_neg, abs_neg] at this
        exact this
  · intro arr t h2
    exact binarySearchClosest_bracket arr t h2
  · intro arr t hstrict hne
    rcases hstrict with hasc | hdesc
    · refine binarySearchClosest_least_of_strict_mono arr t ?_ hne
      intro i j hij hj
      rw [hgetD arr i (by omega), hgetD arr j hj]
      exact hasc.rel_get_of_lt (Fin.mk_lt_mk.mpr hij)
    · have hdmono : ∀ i j, i < j → j < arr.length → arr.getD j 0 < arr.getD i 0 := by
        intro i j hij hj
        rw [hgetD arr i (by omega), hgetD arr j hj]
        exact hdesc.rel_get_of_lt (Fin.mk_lt_mk.mpr hij)
      have hlen : 0 < arr.length := List.length_pos.mpr hne
      by_cases h1 : arr.length = 1
      · refine ⟨0, ?_, by omega, ?_, ?_⟩
        · rw [binarySearchClosest, if_neg (by omega), if_pos h1]
          simp
        · intro j hj
          have : j = 0 := by omega
          rw [this]
        · intro j hj
          exact absurd hj (by omega)
      · have hflag : ¬ arr.getD 0 0 ≤ arr.getD (arr.length - 1) 0 :=
          not_le.mpr (hdmono 0 (arr.length - 1) (by omega) (by omega))
        rw [binarySearchClosest_neg_transfer arr t hflag]
        have hmlen : (arr.map (fun v => -v)).length = arr.length := by simp
        obtain ⟨i, hi, hilen, hmin, hleast⟩ := binarySearchClosest_least_of_strict_mono
          (arr.map (fun v => -v)) (-t) (by
            intro i j hij hj
            rw [getD_map_neg, getD_map_neg]
            have := hdmono i j hij (by omega)
            linarith)
          (by
            intro hnil
            exact hne (by simpa using hnil))
        rw [hmlen] at hi hilen hmin
        refine ⟨i, hi, hilen, ?_, ?_⟩
        · intro j hj
          have := hmin j hj
          rw [getD_map_neg, getD_map_neg,
            show (-(arr.getD i 0)) - (-t) = -(arr.getD i 0 - t) by ring,
            show (-(arr.getD j 0)) - (-t) = -(arr.getD j 0 - t) by ring,
            abs_neg, abs_neg] at this
          exact this
        · intro j hj
          have := hleast j hj
          rw [getD_map_neg, getD_map_neg,
            show (-(arr.getD i 0)) - (-t) = -(arr.getD i 0 - t) by ring,
            show (-(arr.getD j 0)) - (-t) = -(arr.getD j 0 - t) by ring,
            abs_neg, abs_neg] at this
          exact this

/-- C7 witness: the minimising-index conjunct at a concrete ascending array,
    and the least-minimiser conjunct forcing the exact tie `[1, 3]` with
    target `2` (both elements at distance 1) to the lower index `0`. -/
theorem binary_search_closest_witness :
    (∃ i : ℕ, binarySearchClosest [1, 3, 7, 20] 8 4 = (i : ℤ) ∧ i < 4 ∧
      ∀ j, j < 4 → |([1, 3, 7, 20] : List ℚ).getD i 0 - 8| ≤
        |([1, 3, 7, 20] : List ℚ).getD j 0 - 8|) ∧
    binarySearchClosest [1, 3] 2 2 = 0 := by
  constructor
  · exact binary_search_closest_spec.1 [1, 3, 7, 20] 8
      (Or.inl (by norm_num [List.Sorted, List.pairwise_cons])) (by simp)
  · obtain ⟨i, hi, hilen, hmin, hleast⟩ := binary_search_closest_spec.2.2.1 [1, 3] 2
      (Or.inl (by norm_num [List.Sorted, List.pairwise_cons])) (by simp)
    have hlen : ([1, 3] : List ℚ).length = 2 := rfl
    rw [hlen] at hi hilen
    have hi0 : i = 0 := by
      by_contra hne0
      have hi1 : i = 1 := by omega
      have h0 := hleast 0 (by omega)
      rw [hi1, show ([1, 3] : List ℚ).getD 1 0 = 3 from rfl,
        show ([1, 3] : List ℚ).getD 0 0 = 1 from rfl] at h0
      norm_num at h0
    rw [hi0] at hi
    exact hi

/-! ## Claim C10: linear extrapolation outside the source range -/

/-- Evaluation of one `interpolateToGrid` loop body once the bracketing pair
    is known and its x-values differ. -/
theorem interpolateAt_eval (xs ys : List ℚ) (n : ℕ) (asc : Bool) (t : ℚ)
    (a b : ℕ)
    (hlh : bracketLoop
      (fun mid => if asc then decide (xs.getD mid 0 ≤ t)
                  else decide (xs.getD mid 0 ≥ t)) 0 (n - 1) = (a, b))
    (hne : xs.getD a 0 ≠ xs.getD b 0) :
    interpolateAt xs ys n asc t =
      ys.getD a 0 + ((t - xs.getD a 0) / (xs.getD b 0 - xs.getD a 0)) *
        (ys.getD b 0 - ys.getD a 0) := by
  simp only [interpolateAt, hlh]
  rw [if_neg hne]

/-- C10: for a source with at least two usable samples and a target outside
    the source x-range (on either side, for either detected ordering),
    `interpolateToGrid` returns the plain linear extrapolation computed from
    the two boundary samples — the binary search stops at the first or last
    adjacent pair — with no clamping to the source y-range and no
    zero-filling. -/
theorem interpolate_to_grid_extrapolates (idc : ℕ) (s : Spectrum)
    (newX : List ℚ) (j : ℕ) (t : ℚ) (n : ℕ)
    (hn : n = min s.x.length s.y.length) (h2 : 2 ≤ n)
    (hj : j < newX.length) (ht : newX.getD j 0 = t) :
    ((∀ i, i < n → s.x.getD i 0 < t) →
      (s.x.getD 0 0 < s.x.getD (n - 1) 0 →
        s.x.getD (n - 2) 0 ≠ s.x.getD (n - 1) 0 →
        (interpolateToGrid idc s newX).y.getD j 0 =
          s.y.getD (n - 2) 0 +
            ((t - s.x.getD (n - 2) 0) / (s.x.getD (n - 1) 0 - s.x.getD (n - 2) 0)) *
              (s.y.getD (n - 1) 0 - s.y.getD (n - 2) 0)) ∧
      (¬ s.x.getD 0 0 < s.x.getD (n - 1) 0 →
        s.x.getD 0 0 ≠ s.x.getD 1 0 →
        (interpolateToGrid idc s newX).y.getD j 0 =
          s.y.getD 0 0 +
            ((t - s.x.getD 0 0) / (s.x.getD 1 0 - s.x.getD 0 0)) *
              (s.y.getD 1 0 - s.y.getD 0 0))) ∧
    ((∀ i, i < n → t < s.x.getD i 0) →
      (s.x.getD 0 0 < s.x.getD (n - 1) 0 →
        s.x.getD 0 0 ≠ s.x.getD 1 0 →
        (interpolateToGrid idc s newX).y.getD j 0 =
          s.y.getD 0 0 +
            ((t - s.x.getD 0 0) / (s.x.getD 1 0 - s.x.getD 0 0)) *
              (s.y.getD 1 0 - s.y.getD 0 0)) ∧
      (¬ s.x.getD 0 0 < s.x.getD (n - 1) 0 →
        s.x.getD (n - 2) 0 ≠ s.x.getD (n - 1) 0 →
        (interpolateToGrid idc s newX).y.getD j 0 =
          s.y.getD (n - 2) 0 +
            ((t - s.x.getD (n - 2) 0) / (s.x.getD (n - 1) 0 - s.x.getD (n - 2) 0)) *
              (s.y.getD (n - 1) 0 - s.y.getD (n - 2) 0))) := by
  have hjx : newX[j] = t := by
    rw [← ht, List.getD_eq_getElem?_getD, List.getElem?_eq_getElem hj]
    simp
  have hy : (interpolateToGrid idc s newX).y.getD j 0 =
      interpolateAt s.x s.y n
        (decide (s.x.getD 0 0 < s.x.getD (n - 1) 0)) t := by
    rw [hn, interpolateToGrid, if_neg (by omega)]
    show (newX.map _).getD j 0 = _
    rw [List.getD_eq_getElem?_getD,
      List.getElem?_eq_getElem (by simpa using hj)]
    simp only [List.getElem_map, Option.getD_some, hjx, ← hn]
  rw [hy]
  constructor
  · intro hA
    constructor
    · intro hasc hne
      rw [decide_eq_true hasc]
      have hbl := bracketLoop_spec
        (fun mid => if (true : Bool) then decide (s.x.getD mid 0 ≤ t)
                    else decide (s.x.getD mid 0 ≥ t))
        (fun _ => True) (fun m => m = n - 1)
        (n - 1) 0 (n - 1) (le_refl _) (by omega) trivial rfl
        (fun m _ _ _ => trivial)
        (fun m hm0 hmh hp => by
          simp only [if_true, reduceIte, decide_eq_false_iff_not, not_le] at hp
          exact absurd (hA m (by omega)) (by push_neg; linarith))
      have hpair : bracketLoop
          (fun mid => if (true : Bool) then decide (s.x.getD mid 0 ≤ t)
                      else decide (s.x.getD mid 0 ≥ t)) 0 (n - 1) =
          (n - 2, n - 1) :=
        Prod.ext_iff.mpr ⟨by omega, by omega⟩
      exact interpolateAt_eval s.x s.y n true t (n - 2) (n - 1) hpair hne
    · intro hdesc hne
      rw [decide_eq_false hdesc]
      have hbl := bracketLoop_spec
        (fun mid => if (false : Bool) then decide (s.x.getD mid 0 ≤ t)
                    else decide (s.x.getD mid 0 ≥ t))
        (fun m => m = 0) (fun _ => True)
        (n - 1) 0 (n - 1) (le_refl _) (by omega) rfl trivial
        (fun m hm0 hmh hp => by
          simp only [Bool.false_eq_true, if_false, reduceIte, decide_eq_true_eq,
            ge_iff_le] at hp
          exact absurd (hA m (by omega)) (by push_neg; linarith))
        (fun m _ _ _ => trivial)
      have hpair : bracketLoop
          (fun mid => if (false : Bool) then decide (s.x.getD mid 0 ≤ t)
                      else decide (s.x.getD mid 0 ≥ t)) 0 (n - 1) =
          (0, 1) :=
        Prod.ext_iff.mpr ⟨by omega, by omega⟩
      exact interpolateAt_eval s.x s.y n false t 0 1 hpair hne
  · intro hB
    constructor
    · intro hasc hne
      rw [decide_eq_true hasc]
      have hbl := bracketLoop_spec
        (fun mid => if (true : Bool) then decide (s.x.getD mid 0 ≤ t)
                    else decide (s.x.getD mid 0 ≥ t))
        (fun m => m = 0) (fun _ => True)
        (n - 1) 0 (n - 1) (le_refl _) (by omega) rfl trivial
        (fun m hm0 hmh hp => by
          simp only [if_true, reduceIte, decide_eq_true_eq] at hp
          exact absurd (hB m (by omega)) (by push_neg; linarith))
        (fun m _ _ _ => trivial)
      have hpair : bracketLoop
          (fun mid => if (true : Bool) then decide (s.x.getD mid 0 ≤ t)
                      else decide (s.x.getD mid 0 ≥ t)) 0 (n - 1) =
          (0, 1) :=
        Prod.ext_iff.mpr ⟨by omega, by omega⟩
      exact interpolateAt_eval s.x s.y n true t 0 1 hpair hne
    · intro hdesc hne
      rw [decide_eq_false hdesc]
      have hbl := bracketLoop_spec
        (fun mid => if (false : Bool) then decide (s.x.getD mid 0 ≤ t)
                    else decide (s.x.getD mid 0 ≥ t))
        (fun _ => True) (fun m => m = n - 1)
        (n - 1) 0 (n - 1) (le_refl _) (by omega) trivial rfl
        (fun m _ _ _ => trivial)
        (fun m hm0 hmh hp => by
          simp only [Bool.false_eq_true, if_false, reduceIte,
            decide_eq_false_iff_not, ge_iff_le, not_le] at hp
          exact absurd (hB m (by omega)) (by push_neg; linarith))
      have hpair : bracketLoop
          (fun mid => if (false : Bool) then decide (s.x.getD mid 0 ≤ t)
                      else decide (s.x.getD mid 0 ≥ t)) 0 (n - 1) =
          (n - 2, n - 1) :=
        Prod.ext_iff.mpr ⟨by omega, by omega⟩
      exact interpolateAt_eval s.x s.y n false t (n - 2) (n - 1) hpair hne

/-- C10 witness: extrapolating past the right end of the ascending source
    x = [0, 10], y = [0, 100] at target 20 gives 200 — beyond the source
    y-range, so not clamped and not zero-filled. -/
theorem interpolate_to_grid_extrapolates_witness :
    (interpolateToGrid 0
      { id := "a", label := "a", x := [0, 10], y := [0, 100], xUnit := none,
        yUnit := none, color := none, lineStyle := none, type := "other",
        meta := [] } [20]).y.getD 0 0 = 200 := by
  have h := (interpolate_to_grid_extrapolates 0
    { id := "a", label := "a", x := [0, 10], y := [0, 100], xUnit := none,
      yUnit := none, color := none, lineStyle := none, type := "other",
      meta := [] } [20] 0 20 2 (by norm_num) (by norm_num) (by norm_num)
    (by norm_num [List.getD])).1
  have h2 := (h (by
    intro i hi
    interval_cases i <;> norm_num [List.getD])).1
    (by norm_num [List.getD]) (by norm_num [List.getD])
  rw [h2]
  norm_num [List.getD]

/-! ## Claim C6: Pearson correlation bounds and degenerate cases -/

/-- The accumulation loops are finite sums. -/
theorem range_foldl_add (f : ℕ → ℚ) (n : ℕ) :
    (List.range n).foldl (fun acc i => acc + f i) 0 = ∑ i in Finset.range n, f i := by
  induction n with
  | zero => rfl
  | succ m ih =>
      rw [List.range_succ, List.foldl_append, ih, Finset.sum_range_succ, List.foldl_cons,
        List.foldl_nil]

/-- `centeredDot` as a finite sum. -/
theorem centeredDot_eq_sum (a b : List ℚ) (ma mb : ℚ) (n : ℕ) :
    centeredDot a b ma mb n =
      ∑ i in Finset.range n, (a.getD i 0 - ma) * (b.getD i 0 - mb) :=
  range_foldl_add (fun i => (a.getD i 0 - ma) * (b.getD i 0 - mb)) n

/-- `indexSum` as a finite sum. -/
theorem indexSum_eq_sum (l : List ℚ) (n : ℕ) :
    indexSum l n = ∑ i in Finset.range n, l.getD i 0 :=
  range_foldl_add (fun i => l.getD i 0) n

/-- Self-centered dot products are nonnegative. -/
theorem centeredDot_self_nonneg (a : List ℚ) (m : ℚ) (n : ℕ) :
    0 ≤ centeredDot a a m m n := by
  rw [centeredDot_eq_sum]
  exact Finset.sum_nonneg (fun i _ => mul_self_nonneg _)

/-- Cauchy-Schwarz for the correlation accumulators. -/
theorem centeredDot_sq_le (a b : List ℚ) (ma mb : ℚ) (n : ℕ) :
    (centeredDot a b ma mb n) ^ 2 ≤
      centeredDot a a ma ma n * centeredDot b b mb mb n := by
  rw [centeredDot_eq_sum, centeredDot_eq_sum, centeredDot_eq_sum]
  have h := Finset.sum_mul_sq_le_sq_mul_sq (Finset.range n)
    (fun i => a.getD i 0 - ma) (fun i => b.getD i 0 - mb)
  calc (∑ i in Finset.range n, (a.getD i 0 - ma) * (b.getD i 0 - mb)) ^ 2
      ≤ (∑ i in Finset.range n, (a.getD i 0 - ma) ^ 2) *
        (∑ i in Finset.range n, (b.getD i 0 - mb) ^ 2) := h
    _ = _ := by
        congr 1 <;> exact Finset.sum_congr rfl (fun i _ => by ring)

/-- Scaled list access. -/
theorem getD_map_mul (l : List ℚ) (k : ℚ) (i : ℕ) :
    (l.map (fun v => v * k)).getD i 0 = l.getD i 0 * k := by
  by_cases hi : i < l.length
  · rw [List.getD_eq_getElem?_getD, List.getElem?_eq_getElem (by simpa using hi),
      List.getD_eq_getElem?_getD, List.getElem?_eq_getElem hi]
    simp
  · rw [List.getD_eq_getElem?_getD, List.getElem?_eq_none (by simpa using hi),
      List.getD_eq_getElem?_getD, List.getElem?_eq_none (by omega)]
    simp

/-- Scaled index sums. -/
theorem indexSum_map_mul (l : List ℚ) (k : ℚ) (n : ℕ) :
    indexSum (l.map (fun v => v * k)) n = indexSum l n * k := by
  rw [indexSum_eq_sum, indexSum_eq_sum, Finset.sum_mul]
  exact Finset.sum_congr rfl (fun i _ => getD_map_mul l k i)

/-- Covariance of a list against its scalar multiple. -/
theorem centeredDot_map_mul_right (l : List ℚ) (k m : ℚ) (n : ℕ) :
    centeredDot l (l.map (fun v => v * k)) m (m * k) n =
      k * centeredDot l l m m n := by
  rw [centeredDot_eq_sum, centeredDot_eq_sum, Finset.mul_sum]
  refine Finset.sum_congr rfl (fun i _ => ?_)
  rw [getD_map_mul]
  ring

/-- Variance of a scalar multiple. -/
theorem centeredDot_map_mul_both (l : List ℚ) (k m : ℚ) (n : ℕ) :
    centeredDot (l.map (fun v => v * k)) (l.map ( fun v => v * k)) (m * k) (m * k) n =
      k ^ 2 * centeredDot l l m m n := by
  rw [centeredDot_eq_sum, centeredDot_eq_sum, Finset.mul_sum]
  refine Finset.sum_congr rfl (fun i _ => ?_)
  rw [getD_map_mul]
  ring

/-- Correlation of a spectrum against a scaled copy of itself is the sign of
    the scale factor (given nonzero variance). -/
theorem correlation_scaled_eq (a : Spectrum) (idc : ℕ) (k : ℚ)
    (hk : 0 < k ∨ k < 0) (hvar : pearsonVar a.y a.y.length ≠ 0) :
    (0 < k → correlationCoefficient a (scaleSpectrum idc a k) = 1) ∧
    (k < 0 → correlationCoefficient a (scaleSpectrum idc a k) = -1) := by
  have hlen0 : ¬ a.y.length = 0 := by
    intro h
    exact hvar (by rw [h]; rfl)
  rw [pearsonVar] at hvar
  have hkne : k ≠ 0 := by
    rcases hk with h | h
    · exact ne_of_gt h
    · exact ne_of_lt h
  rw [correlationCoefficient]
  simp only [scaleSpectrum, List.length_map, min_self]
  rw [if_neg hlen0]
  rw [indexSum_map_mul]
  rw [show (indexSum a.y a.y.length * k) / (a.y.length : ℚ) =
    (indexSum a.y a.y.length / (a.y.length : ℚ)) * k from by ring]
  rw [centeredDot_map_mul_right, centeredDot_map_mul_both]
  set V := centeredDot a.y a.y
    (indexSum a.y a.y.length / (a.y.length : ℚ))
    (indexSum a.y a.y.length / (a.y.length : ℚ)) a.y.length with hV
  have hVnonneg : (0 : ℚ) ≤ V := centeredDot_self_nonneg _ _ _
  have hVpos : (0 : ℚ) < V := lt_of_le_of_ne hVnonneg (Ne.symm hvar)
  rw [show V * (k ^ 2 * V) = (k * V) ^ 2 from by ring]
  have hsq : Real.sqrt (((k * V) ^ 2 : ℚ) : ℝ) = |(k : ℝ) * (V : ℝ)| := by
    push_cast
    exact Real.sqrt_sq_eq_abs _
  rw [hsq]
  have hprodne : (k : ℝ) * (V : ℝ) ≠ 0 := by
    apply mul_ne_zero
    · exact_mod_cast hkne
    · exact_mod_cast ne_of_gt hVpos
  rw [if_neg (abs_ne_zero.mpr hprodne)]
  constructor
  · intro hkpos
    have hpos : (0 : ℝ) < (k : ℝ) * (V : ℝ) := by
      apply mul_pos
      · exact_mod_cast hkpos
      · exact_mod_cast hVpos
    rw [abs_of_pos hpos]
    push_cast
    exact div_self hprodne
  · intro hkneg
    have hneg : (k : ℝ) * (V : ℝ) < 0 := by
      apply mul_neg_of_neg_of_pos
      · exact_mod_cast hkneg
      · exact_mod_cast hVpos
    rw [abs_of_neg hneg]
    push_cast
    rw [div_neg, div_self hprodne]

/-- C6: the Pearson coefficient lies in [-1, 1]; it is exactly 0 when the
    common length is 0 or either series has zero variance over the first n
    samples; for a curve against a positive scalar multiple of itself it is
    exactly 1, and against a negative multiple (e.g. its negation) exactly
    -1, whenever the curve has nonzero variance. -/
theorem correlation_coefficient_spec :
    (∀ a b : Spectrum,
      -1 ≤ correlationCoefficient a b ∧ correlationCoefficient a b ≤ 1) ∧
    (∀ a b : Spectrum, min a.y.length b.y.length = 0 →
      correlationCoefficient a b = 0) ∧
    (∀ a b : Spectrum,
      pearsonVar a.y (min a.y.length b.y.length) = 0 ∨
        pearsonVar b.y (min a.y.length b.y.length) = 0 →
      correlationCoefficient a b = 0) ∧
    (∀ (idc : ℕ) (a : Spectrum) (k : ℚ), 0 < k →
      pearsonVar a.y a.y.length ≠ 0 →
      correlationCoefficient a (scaleSpectrum idc a k) = 1) ∧
    (∀ (idc : ℕ) (a : Spectrum) (k : ℚ), k < 0 →
      pearsonVar a.y a.y.length ≠ 0 →
      correlationCoefficient a (scaleSpectrum idc a k) = -1) := by
  have hbounds : ∀ a b : Spectrum,
      -1 ≤ correlationCoefficient a b ∧ correlationCoefficient a b ≤ 1 := by
    intro a b
    rw [correlationCoefficient]
    by_cases hn : min a.y.length b.y.length = 0
    · rw [if_pos hn]
      norm_num
    · rw [if_neg hn]
      by_cases hd : Real.sqrt
          ((centeredDot a.y a.y
              (indexSum a.y (min a.y.length b.y.length) / (min a.y.length b.y.length))
              (indexSum a.y (min a.y.length b.y.length) / (min a.y.length b.y.length))
              (min a.y.length b.y.length) *
            centeredDot b.y b.y
              (indexSum b.y (min a.y.length b.y.length) / (min a.y.length b.y.length))
              (indexSum b.y (min a.y.length b.y.length) / (min a.y.length b.y.length))
              (min a.y.length b.y.length) : ℚ) : ℝ) = 0
      · rw [if_pos hd]
        norm_num
      · rw [if_neg hd]
        set n := min a.y.length b.y.length with hnn
        set ma := indexSum a.y n / n with hma
        set mb := indexSum b.y n / n with hmb
        set cov := centeredDot a.y b.y ma mb n with hcov
        set varA := centeredDot a.y a.y ma ma n with hvarA
        set varB := centeredDot b.y b.y mb mb n with hvarB
        have hvA : (0 : ℚ) ≤ varA := centeredDot_self_nonneg a.y ma n
        have hvB : (0 : ℚ) ≤ varB := centeredDot_self_nonneg b.y mb n
        have hprod : (0 : ℚ) ≤ varA * varB := mul_nonneg hvA hvB
        have hds : (0 : ℝ) ≤ Real.sqrt ((varA * varB : ℚ) : ℝ) := Real.sqrt_nonneg _
        have hdpos : (0 : ℝ) < Real.sqrt ((varA * varB : ℚ) : ℝ) :=
          lt_of_le_of_ne hds (Ne.symm hd)
        have hcs : (cov : ℚ) ^ 2 ≤ varA * varB := centeredDot_sq_le a.y b.y ma mb n
        have habs : |(cov : ℝ)| ≤ Real.sqrt ((varA * varB : ℚ) : ℝ) := by
          rw [← Real.sqrt_sq_eq_abs]
          apply Real.sqrt_le_sqrt
          have := (Rat.cast_le (K := ℝ)).mpr hcs
          push_cast at this ⊢
          linarith
        have : |(cov : ℝ) / Real.sqrt ((varA * varB : ℚ) : ℝ)| ≤ 1 := by
          rw [abs_div, abs_of_pos hdpos]
          exact div_le_one_of_le₀ habs hds
        exact abs_le.mp this
  refine ⟨hbounds, ?_, ?_, ?_, ?_⟩
  · intro a b hn
    rw [correlationCoefficient, if_pos hn]
  · intro a b hvar
    rw [correlationCoefficient]
    by_cases hn : min a.y.length b.y.length = 0
    · rw [if_pos hn]
    · rw [if_neg hn, if_pos ?_]
      have hz : (centeredDot a.y a.y
            (indexSum a.y (min a.y.length b.y.length) / (min a.y.length b.y.length))
            (indexSum a.y (min a.y.length b.y.length) / (min a.y.length b.y.length))
            (min a.y.length b.y.length) *
          centeredDot b.y b.y
            (indexSum b.y (min a.y.length b.y.length) / (min a.y.length b.y.length))
            (indexSum b.y (min a.y.length b.y.length) / (min a.y.length b.y.length))
            (min a.y.length b.y.length) : ℚ) = 0 := by
        rcases hvar with h | h
        · rw [pearsonVar] at h
          rw [h, zero_mul]
        · rw [pearsonVar] at h
          rw [h, mul_zero]
      rw [hz]
      push_cast
      exact Real.sqrt_zero
  · intro idc a k hk hvar
    exact correlation_scaled_eq a idc k (Or.inl hk) hvar |>.1 hk
  · intro idc a k hk hvar
    exact correlation_scaled_eq a idc k (Or.inr hk) hvar |>.2 hk

/-- C6 witness: a concrete two-sample curve against twice itself correlates
    to exactly 1. -/
theorem correlation_coefficient_witness :
    correlationCoefficient
      { id := "a", label := "a", x := [0, 1], y := [0, 1], xUnit := none,
        yUnit := none, color := none, lineStyle := none, type := "other",
        meta := [] }
      (scaleSpectrum 0
        { id := "a", label := "a", x := [0, 1], y := [0, 1], xUnit := none,
          yUnit := none, color := none, lineStyle := none, type := "other",
          meta := [] } 2) = 1 :=
  correlation_coefficient_spec.2.2.2.1 0 _ 2 (by norm_num)
    (by norm_num [pearsonVar, centeredDot, indexSum, List.range_succ, List.getD])

/-! ## Claim C5: rubber-band baseline lies below the signal -/

/-- A chord's left endpoint lies on the chord. -/
theorem aboveChord_left (y : List ℚ) (a c : ℕ) : AboveChord y a c a := by
  unfold AboveChord
  simp

/-- A chord's right endpoint lies on the chord. -/
theorem aboveChord_right (y : List ℚ) (a c : ℕ) : AboveChord y a c c :=
  le_refl _

/-- Glue lemma on `[a, b]`: if `b` is above the chord `a → c` and `k ∈ [a, b]`
    is above the chord `a → b`, then `k` is above the chord `a → c`. -/
theorem chord_glue_left (y : List ℚ) (a b c k : ℕ)
    (hab : a < b) (hak : a ≤ k) (hac : a ≤ c)
    (h1 : AboveChord y a c b) (h2 : AboveChord y a b k) :
    AboveChord y a c k := by
  unfold AboveChord at *
  have hba : (0 : ℚ) < (b : ℚ) - (a : ℚ) := by
    rw [sub_pos]
    exact_mod_cast hab
  have hka : (0 : ℚ) ≤ (k : ℚ) - (a : ℚ) := by
    rw [sub_nonneg]
    exact_mod_cast hak
  have hca : (0 : ℚ) ≤ (c : ℚ) - (a : ℚ) := by
    rw [sub_nonneg]
    exact_mod_cast hac
  have e1 : (0 : ℚ) ≤ ((c : ℚ) - a) * (y.getD b 0 - y.getD a 0) -
      ((b : ℚ) - a) * (y.getD c 0 - y.getD a 0) := by linarith
  have e2 : (0 : ℚ) ≤ ((b : ℚ) - a) * (y.getD k 0 - y.getD a 0) -
      ((k : ℚ) - a) * (y.getD b 0 - y.getD a 0) := by linarith
  have key : ((b : ℚ) - a) *
      (((c : ℚ) - a) * (y.getD k 0 - y.getD a 0) -
        ((k : ℚ) - a) * (y.getD c 0 - y.getD a 0)) =
      ((k : ℚ) - a) *
        (((c : ℚ) - a) * (y.getD b 0 - y.getD a 0) -
          ((b : ℚ) - a) * (y.getD c 0 - y.getD a 0)) +
      ((c : ℚ) - a) *
        (((b : ℚ) - a) * (y.getD k 0 - y.getD a 0) -
          ((k : ℚ) - a) * (y.getD b 0 - y.getD a 0)) := by ring
  nlinarith [mul_nonneg hka e1, mul_nonneg hca e2]

/-- Glue lemma on `[b, c]`: if `b` is above the chord `a → c` and `k ≤ c` is
    above the chord `b → c`, then `k` is above the chord `a → c`. -/
theorem chord_glue_right (y : List ℚ) (a b c k : ℕ)
    (hab : a ≤ b) (hbc : b < c) (hkc : k ≤ c)
    (h1 : AboveChord y a c b) (h2 : AboveChord y b c k) :
    AboveChord y a c k := by
  unfold AboveChord at *
  have hcb : (0 : ℚ) < (c : ℚ) - (b : ℚ) := by
    rw [sub_pos]
    exact_mod_cast hbc
  have hck : (0 : ℚ) ≤ (c : ℚ) - (k : ℚ) := by
    rw [sub_nonneg]
    exact_mod_cast hkc
  have hca : (0 : ℚ) ≤ (c : ℚ) - (a : ℚ) := by
    rw [sub_nonneg]
    exact_mod_cast le_trans hab (le_of_lt hbc)
  have e1 : (0 : ℚ) ≤ ((c : ℚ) - a) * (y.getD b 0 - y.getD a 0) -
      ((b : ℚ) - a) * (y.getD c 0 - y.getD a 0) := by linarith
  have e2 : (0 : ℚ) ≤ ((c : ℚ) - b) * (y.getD k 0 - y.getD b 0) -
      ((k : ℚ) - b) * (y.getD c 0 - y.getD b 0) := by linarith
  have key : ((c : ℚ) - b) *
      (((c : ℚ) - a) * (y.getD k 0 - y.getD a 0) -
        ((k : ℚ) - a) * (y.getD c 0 - y.getD a 0)) =
      ((c : ℚ) - k) *
        (((c : ℚ) - a) * (y.getD b 0 - y.getD a 0) -
          ((b : ℚ) - a) * (y.getD c 0 - y.getD a 0)) +
      ((c : ℚ) - a) *
        (((c : ℚ) - b) * (y.getD k 0 - y.getD b 0) -
          ((k : ℚ) - b) * (y.getD c 0 - y.getD b 0)) := by ring
  nlinarith [mul_nonneg hck e1, mul_nonneg hca e2]

/-- The pop phase preserves stack well-formedness, and its resulting top is
    below the incoming index with the whole span `[top, i]` above the chord
    `top → i`. -/
theorem hullPop_spec (y : List ℚ) (i : ℕ) :
    ∀ S : List ℕ, GoodStack y S →
      (∀ top, S.head? = some top → top < i ∧ SegAbove y top i) →
      GoodStack y (hullPop y i S) ∧
      ∃ top', (hullPop y i S).head? = some top' ∧ top' < i ∧ SegAbove y top' i := by
  intro S
  induction S with
  | nil =>
      intro hg _
      exact absurd hg.2 (by simp)
  | cons b T ih =>
      intro hg htop
      cases T with
      | nil =>
          refine ⟨hg, b, rfl, htop b rfl⟩
      | cons a rest =>
          obtain ⟨hrel, hchainT⟩ := List.chain'_cons.mp hg.1
          obtain ⟨hab, hsegab⟩ := hrel
          obtain ⟨hbi, hsegbi⟩ := htop b rfl
          by_cases hcross : 0 ≤ hullCross y a b i
          · rw [show hullPop y i (b :: a :: rest) = hullPop y i (a :: rest) from by
              rw [hullPop, if_pos hcross]]
            have habove : AboveChord y a i b := by
              unfold hullCross at hcross
              unfold AboveChord
              linarith
            have hai : a < i := lt_trans hab hbi
            have hsegai : SegAbove y a i := by
              intro k hak hki
              by_cases hkb : k ≤ b
              · exact chord_glue_left y a b i k hab hak (le_of_lt hai) habove
                  (hsegab k hak hkb)
              · exact chord_glue_right y a b i k (le_of_lt hab) hbi hki habove
                  (hsegbi k (by omega) hki)
            refine ih ⟨hchainT, ?_⟩ ?_
            · rw [← hg.2]
              rfl
            · intro top htop'
              rw [List.head?_cons, Option.some.injEq] at htop'
              rw [← htop']
              exact ⟨hai, hsegai⟩
          · rw [show hullPop y i (b :: a :: rest) = b :: a :: rest from by
              rw [hullPop, if_neg hcross]]
            exact ⟨hg, b, rfl, hbi, hsegbi⟩

/-- Scanning consecutive indices starting just above the current top keeps
    the stack well-formed and leaves the last scanned index on top. -/
theorem hullScan_spec (y : List ℚ) :
    ∀ (count top : ℕ) (S : List ℕ), GoodStack y S → S.head? = some top →
      GoodStack y (hullScan y S (List.range' (top + 1) count)) ∧
      (hullScan y S (List.range' (top + 1) count)).head? = some (top + count) := by
  intro count
  induction count with
  | zero =>
      intro top S hg hh
      rw [List.range']
      exact ⟨hg, by rw [hullScan, hh]; simp⟩
  | succ c ihc =>
      intro top S hg hh
      rw [List.range']
      rw [show hullScan y S ((top + 1) :: List.range' (top + 1 + 1) c) =
        hullScan y ((top + 1) :: hullPop y (top + 1) S) (List.range' (top + 1 + 1) c)
        from by rw [hullScan]]
      have hpop := hullPop_spec y (top + 1) S hg (by
        intro t ht
        rw [hh, Option.some.injEq] at ht
        subst ht
        refine ⟨by omega, ?_⟩
        intro k hk1 hk2
        rcases Nat.eq_or_lt_of_le hk1 with heq | hlt
        · rw [← heq]
          exact aboveChord_left y top (top + 1)
        · have hk : k = top + 1 := by omega
          rw [hk]
          exact aboveChord_right y top (top + 1))
      obtain ⟨hgP, t', ht'head, ht'lt, ht'seg⟩ := hpop
      obtain ⟨P', hP⟩ : ∃ P', hullPop y (top + 1) S = t' :: P' := by
        cases hPc : hullPop y (top + 1) S with
        | nil => rw [hPc] at ht'head; cases ht'head
        | cons p ps =>
            rw [hPc, List.head?_cons, Option.some.injEq] at ht'head
            exact ⟨ps, by rw [ht'head]⟩
      have hgood : GoodStack y ((top + 1) :: hullPop y (top + 1) S) := by
        constructor
        · rw [hP, List.chain'_cons]
          refine ⟨⟨ht'lt, ht'seg⟩, ?_⟩
          have := hgP.1
          rw [hP] at this
          exact this
        · rw [hP, List.getLast?_cons_cons, ← hP]
          exact hgP.2
      have := ihc (top + 1) ((top + 1) :: hullPop y (top + 1) S) hgood rfl
      refine ⟨this.1, ?_⟩
      rw [show top + 1 + c = top + (c + 1) from by omega] at this
      exact this.2

/-- In a strictly increasing chain, the head is at most the last element. -/
theorem chain'_head_le_getLast (y : List ℚ) :
    ∀ (l : List ℕ) (h0 m : ℕ),
      l.Chain' (fun a b => a < b ∧ SegAbove y a b) →
      l.head? = some h0 → l.getLast? = some m → h0 ≤ m := by
  intro l
  induction l with
  | nil => intro h0 m _ hh; cases hh
  | cons x T ih =>
      intro h0 m hchain hh hl
      rw [List.head?_cons, Option.some.injEq] at hh
      subst hh
      cases T with
      | nil =>
          rw [List.getLast?_singleton, Option.some.injEq] at hl
          omega
      | cons z rest =>
          obtain ⟨⟨hxz, _⟩, hchainT⟩ := List.chain'_cons.mp hchain
          have := ih z m hchainT rfl (by rw [← hl, List.getLast?_cons_cons])
          omega

/-- The interpolated baseline never exceeds the signal when the hull chain is
    well-formed and the index lies inside the hull's span. -/
theorem interpBaseline_le (y : List ℚ) :
    ∀ (hull : List ℕ) (i : ℕ),
      hull.Chain' (fun a b => a < b ∧ SegAbove y a b) →
      (∀ a0, hull.head? = some a0 → a0 ≤ i) →
      (∀ m, hull.getLast? = some m → i ≤ m) →
      hull ≠ [] →
      interpBaseline y hull i ≤ y.getD i 0 := by
  intro hull
  induction hull with
  | nil => intro i _ _ _ hne; exact absurd rfl hne
  | cons a T ih =>
      intro i hchain hhead hlast _
      cases T with
      | nil =>
          have h1 := hhead a rfl
          have h2 := hlast a (by rw [List.getLast?_singleton])
          have : a = i := by omega
          rw [interpBaseline, this]
      | cons b rest =>
          obtain ⟨⟨hab, hseg⟩, hchainT⟩ := List.chain'_cons.mp hchain
          rw [interpBaseline]
          by_cases hbi : b ≤ i
          · rw [if_pos hbi]
            refine ih i hchainT ?_ ?_ (by simp)
            · intro a0 ha0
              rw [List.head?_cons, Option.some.injEq] at ha0
              omega
            · intro m hm
              exact hlast m (by rw [← hm, List.getLast?_cons_cons])
          · rw [if_neg hbi]
            have hai : a ≤ i := hhead a rfl
            have habove : AboveChord y a b i := hseg i hai (by omega)
            unfold AboveChord at habove
            have hba : (0 : ℚ) < (b : ℚ) - (a : ℚ) := by
              rw [sub_pos]
              exact_mod_cast hab
            have ht : (((i : ℚ) - (a : ℚ)) / ((b : ℚ) - (a : ℚ))) * ((b : ℚ) - (a : ℚ)) =
                (i : ℚ) - (a : ℚ) := div_mul_cancel₀ _ (ne_of_gt hba)
            show y.getD a 0 * (1 - ((i : ℚ) - (a : ℚ)) / ((b : ℚ) - (a : ℚ))) +
              y.getD b 0 * (((i : ℚ) - (a : ℚ)) / ((b : ℚ) - (a : ℚ))) ≤ y.getD i 0
            set t : ℚ := ((i : ℚ) - (a : ℚ)) / ((b : ℚ) - (a : ℚ)) with htdef
            have h1 : ((b : ℚ) - a) * (t * (y.getD b 0 - y.getD a 0)) ≤
                ((b : ℚ) - a) * (y.getD i 0 - y.getD a 0) := by
              have hcomm : (t * ((b : ℚ) - a)) * (y.getD b 0 - y.getD a 0) =
                  ((b : ℚ) - a) * (t * (y.getD b 0 - y.getD a 0)) := by ring
              rw [← hcomm, ht]
              exact habove
            have h3 := le_of_mul_le_mul_left h1 hba
            nlinarith [h3]

/-- At index 0 the interpolated baseline equals the first sample when the
    hull starts at index 0. -/
theorem interpBaseline_at_zero (y : List ℚ) (hull : List ℕ)
    (hh : hull.head? = some 0)
    (hchain : hull.Chain' (fun a b => a < b ∧ SegAbove y a b)) :
    interpBaseline y hull 0 = y.getD 0 0 := by
  cases hull with
  | nil => cases hh
  | cons a T =>
      rw [List.head?_cons, Option.some.injEq] at hh
      subst hh
      cases T with
      | nil => rfl
      | cons b rest =>
          obtain ⟨⟨hab, _⟩, _⟩ := List.chain'_cons.mp hchain
          rw [interpBaseline, if_neg (by omega)]
          norm_num

/-- At the last hull index the interpolated baseline equals that sample. -/
theorem interpBaseline_at_last (y : List ℚ) :
    ∀ (hull : List ℕ) (m : ℕ),
      hull.Chain' (fun a b => a < b ∧ SegAbove y a b) →
      hull.getLast? = some m →
      interpBaseline y hull m = y.getD m 0 := by
  intro hull
  induction hull with
  | nil => intro m _ hl; cases hl
  | cons a T ih =>
      intro m hchain hl
      cases T with
      | nil =>
          rw [List.getLast?_singleton, Option.some.injEq] at hl
          rw [interpBaseline, hl]
      | cons b rest =>
          obtain ⟨⟨hab, _⟩, hchainT⟩ := List.chain'_cons.mp hchain
          rw [List.getLast?_cons_cons] at hl
          have hbm : b ≤ m := chain'_head_le_getLast y (b :: rest) b m hchainT rfl hl
          rw [interpBaseline, if_pos hbm]
          exact ih m hchainT hl

/-- Access into a tabulated function. -/
theorem getD_map_range {α : Type} (f : ℕ → α) (d : α) (n i : ℕ) (h : i < n) :
    ((List.range n).map f).getD i d = f i := by
  rw [List.getD_eq_getElem?_getD, List.getElem?_eq_getElem (by simpa using h)]
  simp

/-- C5: for inputs with at least 3 samples the rubber-band baseline lies on
    or below the signal at every index (equivalently every corrected sample
    is nonnegative), the first and last corrected samples are exactly 0 (the
    hull touches both endpoints), and shorter inputs are returned unchanged. -/
theorem baseline_rubber_band_spec :
    (∀ y : List ℚ, 3 ≤ y.length →
      (∀ i, i < y.length → (rubberBandBaseline y).getD i 0 ≤ y.getD i 0) ∧
      (∀ i, i < y.length → 0 ≤ (baselineRubberBand y).getD i 0) ∧
      (baselineRubberBand y).getD 0 0 = 0 ∧
      (baselineRubberBand y).getD (y.length - 1) 0 = 0) ∧
    (∀ y : List ℚ, y.length < 3 → baselineRubberBand y = y) := by
  constructor
  · intro y h3
    have hscan := hullScan_spec y (y.length - 1) 0 [0]
      ⟨List.chain'_singleton 0, rfl⟩ rfl
    norm_num at hscan
    obtain ⟨hgood, hhead⟩ := hscan
    have hchain : (hullIndices y).Chain' (fun a b => a < b ∧ SegAbove y a b) := by
      rw [hullIndices, List.chain'_reverse]
      exact hgood.1
    have hh0 : (hullIndices y).head? = some 0 := by
      rw [hullIndices, List.head?_reverse]
      exact hgood.2
    have hlastN : (hullIndices y).getLast? = some (y.length - 1) := by
      rw [hullIndices, List.getLast?_reverse]
      exact hhead
    have hne : hullIndices y ≠ [] := by
      intro h
      rw [h] at hh0
      cases hh0
    have hble : ∀ i, i < y.length → interpBaseline y (hullIndices y) i ≤ y.getD i 0 := by
      intro i hi
      refine interpBaseline_le y (hullIndices y) i hchain ?_ ?_ hne
      · intro a0 ha0
        rw [hh0, Option.some.injEq] at ha0
        omega
      · intro m hm
        rw [hlastN, Option.some.injEq] at hm
        omega
    refine ⟨?_, ?_, ?_, ?_⟩
    · intro i hi
      rw [rubberBandBaseline, getD_map_range _ _ _ i hi]
      exact hble i hi
    · intro i hi
      rw [baselineRubberBand, if_neg (by omega), getD_map_range _ _ _ i hi]
      have := hble i hi
      linarith
    · rw [baselineRubberBand, if_neg (by omega), getD_map_range _ _ _ 0 (by omega)]
      rw [interpBaseline_at_zero y (hullIndices y) hh0 hchain]
      ring
    · rw [baselineRubberBand, if_neg (by omega),
        getD_map_range _ _ _ (y.length - 1) (by omega)]
      rw [interpBaseline_at_last y (hullIndices y) (y.length - 1) hchain hlastN]
      ring
  · intro y h3
    rw [baselineRubberBand, if_pos h3]

/-- C5 witness: the baseline facts at the concrete input [0, 5, 1]. -/
theorem baseline_rubber_band_witness :
    (∀ i, i < 3 → (rubberBandBaseline [0, 5, 1]).getD i 0 ≤ ([0, 5, 1] : List ℚ).getD i 0) ∧
    (baselineRubberBand [0, 5, 1]).getD 0 0 = 0 ∧
    (baselineRubberBand [0, 5, 1]).getD 2 0 = 0 := by
  have h := baseline_rubber_band_spec.1 [0, 5, 1] (by norm_num)
  exact ⟨h.1, h.2.2.1, h.2.2.2⟩

end SpectraView
